import Mathlib

/-!
# Verification of the local-settings loader

A shallow embedding of `local_settings/loader.py` (class `Loader`): the path
parser (`_parse_path`, `_convert_name`), the traversal engine (`_traverse`,
`_get_or_create_segment`), the file reader (`read_file`), the merge pipeline
(`load`), interpolation (`_interpolate`), dynamic import
(`_import_from_string`) and list extension (`_append_extras`).

Conventions of the embedding:
* Python `dict`/`OrderedDict` values are association lists (`List (Seg × Node)`
  for settings containers, `List (String × Node)` for config-file sections);
  insertion order is the list order, as in `OrderedDict`.
* Python exceptions are `Except PyErr`.
* Machine-level recursion (the `extends` chain, recursion over trees during
  interpolation) is bounded by an explicit `fuel : Nat`; running out of fuel
  models CPython's `RecursionError`.  All functions are plain structural
  recursions so that closed applications evaluate in the kernel.
* The config-file format itself (configparser, `Base._parse_setting`,
  `Base._make_parser`) is an external collaborator that is not in the
  repository sources; see `CfgFile` and `parseSetting` below, which are
  modelled from the spec.
-/

set_option autoImplicit false

/-- A path segment: a mapping key (string) or a sequence index (int).
Segments produced by `_parse_path` are strings or non-negative ints. -/
inductive Seg where
  | str (s : String)
  | int (n : Nat)
  deriving DecidableEq, Repr

/-- The Python exceptions the embedded code can raise. -/
inductive PyErr where
  | keyError (k : Seg)
  | indexError
  | typeError (msg : String)
  | attributeError
  | valueError (msg : String)
  | importError (msg : String)
  | recursionError
  deriving DecidableEq, Repr

/-- A value in the settings tree: scalars, the `NO_DEFAULT`/`PLACEHOLDER`
sentinel from `util.py` (one single object, imported under both names in
`loader.py`), deferred `LocalSetting` wrappers (from `types.py`, carrying a
default and a current value), ordered mappings (`OrderedDict`) and lists. -/
inductive Node where
  | str (s : String)
  | int (n : Int)
  | bool (b : Bool)
  | none
  | placeholder
  | localSetting (dflt value : Node)
  | omap (entries : List (Seg × Node))
  | list (elems : List Node)
  deriving Repr

/-! ## Ordered-mapping primitives (`OrderedDict` as an association list) -/

/-- `m[k]` lookup: first entry with the given key. -/
def omapLookup (k : Seg) : List (Seg × Node) → Option Node
  | [] => Option.none
  | kv :: rest => if kv.1 = k then some kv.2 else omapLookup k rest

/-- `k in m`. -/
def omapHasKey (k : Seg) (m : List (Seg × Node)) : Bool :=
  m.any (fun kv => kv.1 == k)

/-- `del m[k]` (also used for `move_to_end`, which removes and re-appends). -/
def omapErase (k : Seg) (m : List (Seg × Node)) : List (Seg × Node) :=
  m.filter (fun kv => !(kv.1 == k))

/-- `m[k] = v` when `k` is already present: replace in place. -/
def omapSet (k : Seg) (v : Node) (m : List (Seg × Node)) : List (Seg × Node) :=
  m.map (fun kv => if kv.1 = k then (k, v) else kv)

/-! ## `_convert_name` and `_parse_path` -/

/-- Numeric value of a digit string, as computed by Python's `int`. -/
def strDigitsVal (cs : List Char) : Nat :=
  cs.foldl (fun a c => 10 * a + (c.toNat - 48)) 0

/-- `re.search('^\d+$', name)`.  `\d` is modelled as the ASCII digits (the
path language of the settings file is ASCII); `$` in Python also matches just
before one trailing newline, which the second disjunct reproduces. -/
def reDigitsMatch (s : String) : Bool :=
  let cs := s.toList
  (!cs.isEmpty && cs.all Char.isDigit)
    || (cs.length ≥ 2 && cs.getLast? == some '\n' && cs.dropLast.all Char.isDigit)

/-- `int(name)` on a string accepted by `reDigitsMatch` (Python's `int`
ignores the trailing newline, which is whitespace). -/
def intOfPyDigits (s : String) : Nat :=
  let cs := s.toList
  strDigitsVal (if cs.getLast? == some '\n' then cs.dropLast else cs)

/-- `Loader._convert_name`: convert `name` to an int if it looks like an int,
except that multi-character names with a leading `'0'` stay strings. -/
def convertName (name : String) : Seg :=
  if reDigitsMatch name then
    if name.length > 1 && name.toList.head? == some '0' then .str name
    else .int (intOfPyDigits name)
  else .str name

/-- Scanner state for `_parse_path`.  The Python code drives a character
iterator: the `for` loop pulls the first character of a segment and
`takewhile` pulls the rest, consuming the terminating `'.'` or `')'`; after a
`')'` one further character (the following dot) is consumed.  The same
consumption pattern is expressed here as a state machine over the character
list. -/
inductive PMode where
  | idle
  | plain (acc : List Char)
  | paren (acc : List Char)
  | skipDot
  deriving Repr

/-- One pass of `Loader._parse_path` over the remaining characters. -/
def parseGo : List Char → PMode → List Seg
  | [], .idle => []
  | [], .skipDot => []
  | [], .plain acc => [convertName (String.mk acc)]
  | [], .paren acc => [convertName (String.mk acc)]
  | c :: rest, .idle =>
      if c = '(' then parseGo rest (.paren []) else parseGo rest (.plain [c])
  | c :: rest, .plain acc =>
      if c = '.' then convertName (String.mk acc) :: parseGo rest .idle
      else parseGo rest (.plain (acc ++ [c]))
  | c :: rest, .paren acc =>
      if c = ')' then convertName (String.mk acc) :: parseGo rest .skipDot
      else parseGo rest (.paren (acc ++ [c]))
  | _ :: rest, .skipDot => parseGo rest .idle

/-- `Loader._parse_path`. -/
def parsePath (path : String) : List Seg :=
  parseGo path.toList .idle

/-- A dot-joined path expression built from a list of tokens (used to state
properties about expressions "built only of identifiers and dots"). -/
def dottedJoin : List String → String
  | [] => ""
  | [t] => t
  | t :: ts => t ++ "." ++ dottedJoin ts

/-! ## Subscription and the traversal engine -/

/-- Python subscription `obj[segment]`, one step of `_traverse` without
`create_missing`.  Mappings raise `KeyError` for an absent key (whatever the
key's type); lists raise `IndexError` for an out-of-range int index and
`TypeError` for a string index; strings behave as sequences of characters;
everything else is not subscriptable. -/
def getItem (obj : Node) (seg : Seg) : Except PyErr Node :=
  match obj with
  | .omap entries =>
      match omapLookup seg entries with
      | some v => .ok v
      | Option.none => .error (.keyError seg)
  | .list elems =>
      match seg with
      | .int n =>
          match elems.get? n with
          | some v => .ok v
          | Option.none => .error .indexError
      | .str _ => .error (.typeError "list indices must be integers or slices, not str")
  | .str s =>
      match seg with
      | .int n =>
          match s.toList.get? n with
          | some c => .ok (.str (String.mk [c]))
          | Option.none => .error .indexError
      | .str _ => .error (.typeError "string indices must be integers")
  | _ => .error (.typeError "object is not subscriptable")

/-- `Loader._traverse(obj, name)` with no visitor and `create_missing=False`:
resolve `obj[segment]` for each segment in turn and return the final value;
the first exception aborts the walk. -/
def traverseGet (obj : Node) : List Seg → Except PyErr Node
  | [] => .ok obj
  | seg :: rest =>
      match getItem obj seg with
      | .ok v => traverseGet v rest
      | .error e => .error e

/-- Identity test against the `NO_DEFAULT`/`PLACEHOLDER` sentinel object
(`x is PLACEHOLDER` in Python; the sentinel is a singleton). -/
def Node.isPlaceholder : Node → Bool
  | .placeholder => true
  | _ => false

/-- The "default default" of `_get_or_create_segment`: if the next segment is
an int, a list with `next + 1` `PLACEHOLDER` slots; otherwise an `OrderedDict`. -/
def defaultFor : Option Seg → Node
  | some (.int n) => .list (List.replicate (n + 1) Node.placeholder)
  | _ => .omap []

/-- `Loader._get_or_create_segment(obj, segment, next_segment, default)`.
Returns the updated container together with `obj[segment]`.  `default` is the
`NO_DEFAULT` sentinel (`Node.placeholder` — `loader.py` imports the same
`util.NO_DEFAULT` object under both names) unless explicitly passed.
A Python `str` is itself a `Sequence`, so the sequence branch applies to it:
growing it calls the missing `str.append` (`AttributeError`) and comparing a
string segment against its length is a `TypeError`. -/
def getOrCreateSegment (obj : Node) (seg : Seg) (next : Option Seg)
    (default : Node) : Except PyErr (Node × Node) :=
  let dflt := match default with
    | .placeholder => defaultFor next
    | d => d
  match obj with
  | .omap entries =>
      match omapLookup seg entries with
      | some v => .ok (.omap entries, v)
      | Option.none => .ok (.omap (entries ++ [(seg, dflt)]), dflt)
  | .list elems =>
      match seg with
      | .int n =>
          -- while segment >= len(obj): obj.append(PLACEHOLDER)
          let grown := elems ++ List.replicate (n + 1 - elems.length) Node.placeholder
          match grown.get? n with
          | some v =>
              -- if obj[segment] is PLACEHOLDER: obj[segment] = default
              if v.isPlaceholder then .ok (.list (grown.set n dflt), dflt)
              else .ok (.list grown, v)
          | Option.none => .error .indexError   -- unreachable: grown is long enough
      | .str _ => .error (.typeError "not supported between instances of str and int")
  | .str s =>
      match seg with
      | .int n =>
          if n < s.length then .ok (.str s, .str (String.mk (s.toList.drop n |>.take 1)))
          else .error .attributeError   -- str object has no attribute append
      | .str _ => .error (.typeError "not supported between instances of str and int")
  | _ => .error (.typeError "object is not subscriptable")

/-- Python item assignment `obj[segment] = value`.  For mappings an existing
key keeps its position; a new key is appended.  List assignment requires an
in-range int index. -/
def setSeg (obj : Node) (seg : Seg) (value : Node) : Except PyErr Node :=
  match obj with
  | .omap entries =>
      if omapHasKey seg entries then .ok (.omap (omapSet seg value entries))
      else .ok (.omap (entries ++ [(seg, value)]))
  | .list elems =>
      match seg with
      | .int n =>
          if n < elems.length then .ok (.list (elems.set n value))
          else .error .indexError
      | .str _ => .error (.typeError "list indices must be integers or slices, not str")
  | _ => .error (.typeError "object does not support item assignment")

/-- One registry record: `Loader.load`'s visitor stores, keyed by the
`LocalSetting` object found in the slot being overwritten (whose `value`
field it just assigned), the segment at which it was found. -/
def RegEntry := Node × Seg

/-- `Loader._traverse(settings, name, visit=visit, create_missing=True,
default=None)` as invoked from `Loader.load`, specialised to `load`'s
visitor: on every segment the containing `OrderedDict` moves the key to the
end (`move_to_end`); on the final segment the value is written, and if the
previous occupant was a `LocalSetting` its `value` field is set and it is
recorded in the registry.  Python mutates the shared containers in place;
functionally the updated child is written back at its (unchanged) position. -/
def applySetting : List Seg → Node → Node → Except PyErr (Node × List RegEntry)
  | [], obj, _ => .ok (obj, [])
  | seg :: rest, obj, value =>
      -- segment_default = default if last else NO_DEFAULT, with default=None
      let segDefault : Node := if rest.isEmpty then .none else .placeholder
      match getOrCreateSegment obj seg rest.head? segDefault with
      | .error e => .error e
      | .ok (obj₁, val) =>
          -- visit: if isinstance(obj, OrderedDict): obj.move_to_end(segment)
          let obj₂ := match obj₁ with
            | .omap entries => Node.omap (omapErase seg entries ++ [(seg, val)])
            | other => other
          match rest with
          | [] =>
              -- Reached setting: obj[segment] = value (+ registry bookkeeping)
              match setSeg obj₂ seg value with
              | .error e => .error e
              | .ok obj₃ =>
                  let regs : List RegEntry := match val with
                    | .localSetting dflt _ => [(Node.localSetting dflt value, seg)]
                    | _ => []
                  .ok (obj₃, regs)
          | _ :: _ =>
              match applySetting rest val value with
              | .error e => .error e
              | .ok (val', regs) =>
                  match setSeg obj₂ seg val' with
                  | .error e => .error e
                  | .ok obj₃ => .ok (obj₃, regs)

/-! ## Seeding: `load`'s uppercase filter -/

/-- Whether a character is cased.  Unicode title-case letters are beyond the
scope of the ASCII setting names this loader handles. -/
def isCased (c : Char) : Bool := c.isUpper || c.isLower

/-- Python's `str.isupper`: at least one cased character, and no cased
character is lowercase. -/
def pyIsupper (s : String) : Bool :=
  s.toList.any isCased && s.toList.all (fun c => !c.isLower)

/-- The seeding line of `Loader.load`:
`OrderedDict((k, v) for (k, v) in base_settings.items() if k.isupper())`. -/
def seedSettings (base : List (String × Node)) : List (Seg × Node) :=
  (base.filter (fun kv => pyIsupper kv.1)).map (fun kv => (Seg.str kv.1, kv.2))

/-- Python truthiness of a settings value.  The sentinel and `LocalSetting`
objects define no `__bool__`/`__len__`, hence are truthy. -/
def pyFalsy : Node → Bool
  | .none => true
  | .bool b => !b
  | .int n => n == 0
  | .str s => s.isEmpty
  | .list l => l.isEmpty
  | .omap l => l.isEmpty
  | .placeholder => false
  | .localSetting _ _ => false

/-! ## `str.format` and `_interpolate`

`_interpolate` calls `v.format(**settings)` on every string.  `str.format` is
a Python library routine; it is modelled here on the subset the settings
language uses: literal text, doubled braces and simple `\x7bNAME\x7d` fields.
Unpacking `**settings` requires every key to be a string; field names that
are empty or all digits are positional references and hit `IndexError`
because no positional arguments are supplied; attribute/index/format-spec
suffixes (`.`, `[`, `:`, `!` inside a field) address object internals that
the settings trees modelled here do not have and are conservatively mapped
to `AttributeError` (no claim exercises them). -/

/-- One parsed piece of a format string. -/
inductive FmtItem where
  | lit (c : Char)
  | field (name : String)
  deriving DecidableEq, Repr

/-- Scanner state for the format-string parser. -/
inductive FMode where
  | text
  | lbrace
  | rbrace
  | inField (acc : List Char)

/-- Parse a format string into literal characters and replacement fields;
unbalanced braces raise `ValueError` as in Python. -/
def fmtGo : List Char → FMode → Except PyErr (List FmtItem)
  | [], .text => .ok []
  | [], .lbrace => .error (.valueError "Single opening brace encountered in format string")
  | [], .rbrace => .error (.valueError "Single closing brace encountered in format string")
  | [], .inField _ => .error (.valueError "expected closing brace before end of string")
  | c :: rest, .text =>
      if c = '\x7b' then fmtGo rest .lbrace
      else if c = '\x7d' then fmtGo rest .rbrace
      else (fmtGo rest .text).map (fun items => .lit c :: items)
  | c :: rest, .lbrace =>
      if c = '\x7b' then (fmtGo rest .text).map (fun items => .lit '\x7b' :: items)
      else if c = '\x7d' then (fmtGo rest .text).map (fun items => .field "" :: items)
      else fmtGo rest (.inField [c])
  | c :: rest, .rbrace =>
      if c = '\x7d' then (fmtGo rest .text).map (fun items => .lit '\x7d' :: items)
      else .error (.valueError "Single closing brace encountered in format string")
  | c :: rest, .inField acc =>
      if c = '\x7d' then (fmtGo rest .text).map (fun items => .field (String.mk acc) :: items)
      else if c = '\x7b' then .error (.valueError "unexpected opening brace in field name")
      else fmtGo rest (.inField (acc ++ [c]))

/-- `str(value)` / the default rendering of a substituted value, fuel-capped
(Python's rendering of acyclic values always terminates; the cap is never hit
at the depths used here).  Scalars follow Python; container rendering
follows `repr` of `OrderedDict`/`list`.  The renderings of the sentinel and
of `LocalSetting` come from classes outside the sources and are opaque. -/
def pyRender : Nat → Bool → Node → String
  | 0, _, _ => ""
  | _ + 1, true, .str s => "'" ++ s ++ "'"
  | _ + 1, false, .str s => s
  | _ + 1, _, .int n => toString n
  | _ + 1, _, .bool b => if b then "True" else "False"
  | _ + 1, _, .none => "None"
  | _ + 1, _, .placeholder => "NO_DEFAULT"
  | _ + 1, _, .localSetting _ _ => "LocalSetting"
  | fuel + 1, _, .omap entries =>
      "OrderedDict([" ++
        String.intercalate ", " (entries.map (fun kv =>
          "(" ++ pyRenderKey kv.1 ++ ", " ++ pyRender fuel true kv.2 ++ ")")) ++ "])"
  | fuel + 1, _, .list elems =>
      "[" ++ String.intercalate ", " (elems.map (pyRender fuel true)) ++ "]"
where
  /-- `repr` of a key. -/
  pyRenderKey : Seg → String
    | .str s => "'" ++ s ++ "'"
    | .int n => toString n

/-- `str(value)`. -/
def pyStr (fuel : Nat) (v : Node) : String := pyRender fuel false v

/-- Substitute one replacement field: look the (simple) name up among the
keyword arguments and render the value. -/
def renderField (strFuel : Nat) (name : String) (ctx : List (Seg × Node)) :
    Except PyErr String :=
  let base := name.toList.takeWhile (fun c => c ≠ '.' && c ≠ '[' && c ≠ ':' && c ≠ '!')
  if base.isEmpty || base.all Char.isDigit then .error .indexError
  else
    match omapLookup (.str (String.mk base)) ctx with
    | Option.none => .error (.keyError (.str (String.mk base)))
    | some v =>
        if base.length = name.length then .ok (pyStr strFuel v)
        else .error .attributeError

/-- Render one parsed template item. -/
def renderItem (strFuel : Nat) (ctx : List (Seg × Node)) : FmtItem → Except PyErr String
  | .lit c => .ok (String.mk [c])
  | .field nm => renderField strFuel nm ctx

/-- `template.format(**ctx)`: Python first unpacks the keyword arguments
(every key must be a string), then parses the template and substitutes each
field in one pass. -/
def pyFormat (strFuel : Nat) (template : String) (ctx : List (Seg × Node)) :
    Except PyErr String :=
  if ctx.any (fun kv => match kv.1 with | .int _ => true | _ => false) then
    .error (.typeError "keywords must be strings")
  else
    match fmtGo template.toList .text with
    | .error e => .error e
    | .ok items =>
        match items.mapM (renderItem strFuel ctx) with
        | .error e => .error e
        | .ok parts => .ok (String.join parts)

/-- The field names of a parsed template. -/
def itemsFields : List FmtItem → List String
  | [] => []
  | .lit _ :: rest => itemsFields rest
  | .field nm :: rest => nm :: itemsFields rest

/-- The field names referenced by a template (empty when the template is
malformed). -/
def fmtRefs (template : String) : List String :=
  match fmtGo template.toList .text with
  | .error _ => []
  | .ok items => itemsFields items

/-- A simple identifier-like field name: the `\x7bNAME\x7d` form the spec's
interpolation language uses. -/
def isSimpleFieldName (s : String) : Bool :=
  !s.toList.isEmpty && s.toList.all (fun c => c.isAlphanum || c = '_')
    && !(s.toList.all Char.isDigit)

/-- The template parses and every replacement field is a simple name. -/
def fmtWF (template : String) : Bool :=
  match fmtGo template.toList .text with
  | .error _ => false
  | .ok items => items.all (fun it =>
      match it with
      | .field nm => isSimpleFieldName nm
      | .lit _ => true)

/-- `Loader._interpolate(v, settings)` for a value nested inside the
settings tree.  The context is the top-level settings mapping.  Strings get
one `format` pass; in a mapping every key is itself formatted and, when the
key changed, the old entry is deleted after the new one is written (the
original entry list is iterated); sequences are rebuilt element-wise; other
scalars (including the sentinel and `LocalSetting` objects, whose classes
define none of the checked interfaces) are returned unchanged.  Python lets
nested mutations become visible through the aliased context mid-pass; the
claims proved here never rename keys or read a sibling that is being
rewritten, so the context is passed as the fixed snapshot it then equals. -/
def interpValue : Nat → Node → List (Seg × Node) → Except PyErr Node
  | 0, _, _ => .error .recursionError
  | fuel + 1, v, ctx =>
      match v with
      | .str s => (pyFormat fuel s ctx).map .str
      | .omap entries =>
          match entries.mapM (fun kv => do
              let newK ← match kv.1 with
                | .str ks => (pyFormat fuel ks ctx).map Seg.str
                | .int _ => Except.error PyErr.attributeError   -- int has no `format`
              let newV ← interpValue fuel kv.2 ctx
              Except.ok (kv.1, newK, newV)) with
          | .error e => .error e
          | .ok upd =>
              .ok (.omap (upd.foldl (fun acc p =>
                  let acc₁ :=
                    if omapHasKey p.2.1 acc then omapSet p.2.1 p.2.2 acc
                    else acc ++ [(p.2.1, p.2.2)]
                  if p.1 = p.2.1 then acc₁ else omapErase p.1 acc₁) entries))
      | .list elems =>
          match elems.mapM (fun e => interpValue fuel e ctx) with
          | .error e => .error e
          | .ok elems' => .ok (.list elems')
      | other => .ok other

/-- The top-level call `self._interpolate(settings, settings)`: the mapping
branch of `_interpolate` where the value being rewritten *is* the context,
so each entry's rewrite is visible to the entries after it. -/
def interpSettings (fuel : Nat) (entries : List (Seg × Node)) :
    Except PyErr (List (Seg × Node)) :=
  entries.foldlM (fun acc kv => do
      let ctx := acc
      let newK ← match kv.1 with
        | .str ks => (pyFormat fuel ks ctx).map Seg.str
        | .int _ => Except.error PyErr.attributeError
      let curV := (omapLookup kv.1 acc).getD kv.2
      let newV ← interpValue fuel curV ctx
      let acc₁ :=
        if omapHasKey newK acc then omapSet newK newV acc
        else acc ++ [(newK, newV)]
      Except.ok (if kv.1 = newK then acc₁ else omapErase kv.1 acc₁)) entries

/-! ## `last_only` traversal and the two post-passes -/

/-- `Loader._traverse(settings, name, visit, last_only=True)` with a visitor
that may overwrite the final slot: intermediate segments are plain
subscriptions; at the last segment `action` receives the segment and current
value and returns `some new` to perform `obj[key] = new` (or `none` to leave
the slot alone).  The rebuilt child is written back at its unchanged
position, mirroring Python's in-place mutation of the shared container. -/
def traverseLastSet (action : Seg → Node → Except PyErr (Option Node)) :
    List Seg → Node → Except PyErr Node
  | [], obj => .ok obj
  | [seg], obj =>
      match getItem obj seg with
      | .error e => .error e
      | .ok val =>
          match action seg val with
          | .error e => .error e
          | .ok (some newV) => setSeg obj seg newV
          | .ok Option.none => .ok obj
  | seg :: rest, obj =>
      match getItem obj seg with
      | .error e => .error e
      | .ok val =>
          match traverseLastSet action rest val with
          | .error e => .error e
          | .ok val' => setSeg obj seg val'

/-- `settings.get(name)` on the whole settings tree. -/
def settingsGet (name : String) : Node → Option Node
  | .omap entries => omapLookup (.str name) entries
  | _ => Option.none

/-- `Loader._import_from_string(settings)`: for each name under
`IMPORT_FROM_STRING`, traverse to it (`last_only`) and, when the value is a
string, replace it with `resolve(value)` (`django...import_string`, an
opaque collaborator whose failures propagate).  Modelled from the spec: the
directive's value is a list of path-name strings ("IMPORT_FROM_STRING (list
of path names)"); a falsy value means "do nothing". -/
def importFromString (settings : Node) (resolve : String → Except PyErr Node) :
    Except PyErr Node :=
  match settingsGet "IMPORT_FROM_STRING" settings with
  | Option.none => .ok settings
  | some v =>
      if pyFalsy v then .ok settings
      else
        match v with
        | .list names =>
            names.foldlM (fun acc nameN =>
              match nameN with
              | .str name =>
                  traverseLastSet
                    (fun _ val =>
                      match val with
                      | .str s => (resolve s).map some
                      | _ => .ok Option.none)
                    (parsePath name) acc
              | _ => .error (.typeError "path names must be strings")) settings
        | _ => .error (.typeError "IMPORT_FROM_STRING must be a list of names")

/-- `Loader._append_extras(settings)`: for each `name -> extra_val` under
`EXTRA`, traverse to `name` (`last_only`); a non-sequence target raises
`TypeError('EXTRA only works with list-type settings')`; when `extra_val` is
not `None` the target is replaced by `val + extra_val` (concatenation). -/
def appendExtras (settings : Node) : Except PyErr Node :=
  match settingsGet "EXTRA" settings with
  | Option.none => .ok settings
  | some v =>
      if pyFalsy v then .ok settings
      else
        match v with
        | .omap items =>
            items.foldlM (fun acc kv =>
              match kv.1 with
              | .str name =>
                  traverseLastSet
                    (fun _ val =>
                      match val, kv.2 with
                      | .list _, .none => .ok Option.none
                      | .list a, .list b => .ok (some (.list (a ++ b)))
                      | .list _, _ => .error (.typeError "can only concatenate list to list")
                      | .str _, .none => .ok Option.none
                      | .str a, .str b => .ok (some (.str (a ++ b)))
                      | .str _, _ => .error (.typeError "can only concatenate str to str")
                      | _, _ => .error (.typeError "EXTRA only works with list-type settings"))
                    (parsePath name) acc
              | _ => .error (.typeError "path names must be strings")) settings
        | _ => .error .attributeError   -- .items() on a non-mapping

/-! ## `read_file` and `load` -/

/-- A settings file, with the external file format already read: `ext` holds
the files named by its `extends` setting (in the listed order), already
resolved from file names to their contents, and `entries` the remaining
(name, parsed raw value) pairs of the target section in file order.
Modelled from the spec: the INI-style format, configparser and the file
system are external collaborators ("the file format of the settings file
itself ... is assumed, parsed by an off-the-shelf parser"); the `extends`
entry itself is resolved into `ext` and stripped ("The `extends` key is
never present in the output tree"). -/
inductive CfgFile where
  | mk (ext : List CfgFile) (entries : List (String × Node))

/-- `Base._parse_setting` parses a raw string from the file into a value;
it lives outside the sources.  Modelled from the spec: "raw value is first
parsed by the file-format reader (shorthand for basic scalars/lists/maps)" —
here entries already carry parsed `Node` values, so it is the identity. -/
def parseSetting (v : Node) : Node := v

/-- `m[k]` on a section-style string-keyed ordered mapping. -/
def sLookup (k : String) : List (String × Node) → Option Node
  | [] => Option.none
  | kv :: rest => if kv.1 = k then some kv.2 else sLookup k rest

/-- `k in m` for a section-style mapping. -/
def sHasKey (k : String) (m : List (String × Node)) : Bool :=
  m.any (fun kv => kv.1 == k)

/-- One assignment step of `OrderedDict.update`: an existing key is
overwritten in place, a new key is appended. -/
def sSet (k : String) (v : Node) (m : List (String × Node)) : List (String × Node) :=
  if sHasKey k m then m.map (fun kv => if kv.1 = k then (k, v) else kv)
  else m ++ [(k, v)]

/-- `acc.update(upd)` for `OrderedDict`s. -/
def sUpdate (acc upd : List (String × Node)) : List (String × Node) :=
  upd.foldl (fun acc kv => sSet kv.1 kv.2 acc) acc

/-- The `extends` loop of `read_file`:
`for e in reversed(extends): settings.update(self.__class__(e, ...).read_file())`. -/
def extendsFold (read : CfgFile → Except PyErr (List (String × Node)))
    (ext : List CfgFile) : Except PyErr (List (String × Node)) :=
  ext.reverse.foldlM (fun acc e => (read e).map (sUpdate acc)) []

/-- `Loader.read_file`, fuel-bounded (the chain of `extends` loaders recurses
with no cycle detection; exhausted fuel is CPython's `RecursionError`):
merge the extended files' settings in reversed order, then delete every
accumulated key that the file itself sets and layer the file's own entries
on top. -/
def readFileF : Nat → CfgFile → Except PyErr (List (String × Node))
  | 0, _ => .error .recursionError
  | fuel + 1, .mk ext entries =>
      match extendsFold (readFileF fuel) ext with
      | .error e => .error e
      | .ok acc =>
          let acc := acc.filter (fun kv => !sHasKey kv.1 entries)
          .ok (sUpdate acc entries)

/-- `settings.pop('extends', None)`. -/
def popExtends : Node → Node
  | .omap entries => .omap (omapErase (.str "extends") entries)
  | other => other

/-- `Loader.load(base_settings)`: seed with the uppercase entries of the
base settings, apply each entry read from the file through the creating
traversal, strip `extends`, then run interpolation, dynamic import and list
extension.  Returns the settings tree together with the registry.  (The
soft path for a file that vanishes between construction and `load` — warn
and return `None` — concerns the file system and is not modelled; a
`CfgFile` in hand is a file that was read.) -/
def load (fuel : Nat) (f : CfgFile) (base : List (String × Node))
    (resolve : String → Except PyErr Node) :
    Except PyErr (Node × List RegEntry) :=
  match readFileF fuel f with
  | .error e => .error e
  | .ok fileSettings =>
      match fileSettings.foldlM (fun st kv =>
          match applySetting (parsePath kv.1) st.1 (parseSetting kv.2) with
          | .error e => Except.error e
          | .ok (st', regs) => Except.ok (st', st.2 ++ regs))
        ((Node.omap (seedSettings base), []) : Node × List RegEntry) with
      | .error e => .error e
      | .ok (settings, registry) =>
          match popExtends settings with
          | .omap entries =>
              match interpSettings fuel entries with
              | .error e => .error e
              | .ok entries' =>
                  match importFromString (.omap entries') resolve with
                  | .error e => .error e
                  | .ok settings₂ =>
                      match appendExtras settings₂ with
                      | .error e => .error e
                      | .ok settings₃ => .ok (settings₃, registry)
          | _ => .error (.typeError "settings is always an ordered mapping")

/-- A `resolve` collaborator for closed evaluations: never called by the
inputs used (no `IMPORT_FROM_STRING` directive present). -/
def resolve0 : String → Except PyErr Node := fun s => .error (.importError s)

/-! ## General lemmas about the embedding -/

theorem stringMk_toList (s : String) : String.mk s.toList = s := by
  cases s; rfl

theorem stringToList_append (a b : String) : (a ++ b).toList = a.toList ++ b.toList :=
  String.data_append a b

/-- A character of an identifier token is never one of the parser's
metacharacters. -/
def isIdentToken (t : String) : Bool :=
  !t.toList.isEmpty && t.toList.all (fun c => c.isAlphanum || c = '_')

theorem identChar_ne_dot {c : Char} (h : (c.isAlphanum || c = '_') = true) : c ≠ '.' := by
  rintro rfl; simp [Char.isAlphanum, Char.isAlpha, Char.isUpper, Char.isLower,
    Char.isDigit] at h

theorem identChar_ne_lparen {c : Char} (h : (c.isAlphanum || c = '_') = true) : c ≠ '(' := by
  rintro rfl; simp [Char.isAlphanum, Char.isAlpha, Char.isUpper, Char.isLower,
    Char.isDigit] at h

/-! ### Parser lemmas -/

theorem parseGo_plain_end (cs : List Char) (hcs : '.' ∉ cs) (acc : List Char) :
    parseGo cs (.plain acc) = [convertName (String.mk (acc ++ cs))] := by
  induction cs generalizing acc with
  | nil => simp [parseGo]
  | cons c rest ih =>
      have hc : c ≠ '.' := fun h => hcs (h ▸ List.mem_cons_self c rest)
      have hrest : '.' ∉ rest := fun h => hcs (List.mem_cons_of_mem c h)
      simp [parseGo, hc, ih hrest, List.append_assoc]

theorem parseGo_plain_dot (cs : List Char) (hcs : '.' ∉ cs) (acc rest : List Char) :
    parseGo (cs ++ '.' :: rest) (.plain acc) =
      convertName (String.mk (acc ++ cs)) :: parseGo rest .idle := by
  induction cs generalizing acc with
  | nil => simp [parseGo]
  | cons c cs' ih =>
      have hc : c ≠ '.' := fun h => hcs (h ▸ List.mem_cons_self c cs')
      have hcs' : '.' ∉ cs' := fun h => hcs (List.mem_cons_of_mem c h)
      simp [parseGo, hc, ih hcs', List.append_assoc]

theorem parseGo_paren_end (cs : List Char) (hcs : ')' ∉ cs) (acc : List Char) :
    parseGo cs (.paren acc) = [convertName (String.mk (acc ++ cs))] := by
  induction cs generalizing acc with
  | nil => simp [parseGo]
  | cons c rest ih =>
      have hc : c ≠ ')' := fun h => hcs (h ▸ List.mem_cons_self c rest)
      have hrest : ')' ∉ rest := fun h => hcs (List.mem_cons_of_mem c h)
      simp [parseGo, hc, ih hrest, List.append_assoc]

theorem isIdentToken_parts {t : String} (ht : isIdentToken t = true) :
    t.toList ≠ [] ∧ ∀ x ∈ t.toList, (x.isAlphanum || x = '_') = true := by
  have h := ht
  simp only [isIdentToken, Bool.and_eq_true, List.all_eq_true] at h
  refine ⟨?_, h.2⟩
  intro hnil
  rw [hnil] at h
  simp at h

/-- Parsing one identifier token starting from the idle state, with input
continuing with a dot. -/
theorem parseGo_ident_dot (t : String) (ht : isIdentToken t = true) (rest : List Char) :
    parseGo (t.toList ++ '.' :: rest) .idle =
      convertName t :: parseGo rest .idle := by
  obtain ⟨hne, hall⟩ := isIdentToken_parts ht
  obtain ⟨c, cs, hcs⟩ : ∃ c cs, t.toList = c :: cs := by
    rcases h : t.toList with _ | ⟨c, cs⟩
    · exact absurd h hne
    · exact ⟨c, cs, rfl⟩
  have hc : c ≠ '(' := identChar_ne_lparen (hall c (hcs ▸ List.mem_cons_self c cs))
  have hcs_nodot : '.' ∉ cs := by
    intro hmem
    exact identChar_ne_dot (hall '.' (hcs ▸ List.mem_cons_of_mem c hmem)) rfl
  have hmk : String.mk (c :: cs) = t := by rw [← hcs]; exact stringMk_toList t
  rw [hcs]
  calc parseGo ((c :: cs) ++ '.' :: rest) .idle
      = parseGo (cs ++ '.' :: rest) (.plain [c]) := by simp [parseGo, hc]
    _ = convertName (String.mk ([c] ++ cs)) :: parseGo rest .idle :=
        parseGo_plain_dot cs hcs_nodot [c] rest
    _ = convertName t :: parseGo rest .idle := by rw [List.singleton_append, hmk]

/-- Parsing one trailing identifier token from the idle state. -/
theorem parseGo_ident_end (t : String) (ht : isIdentToken t = true) :
    parseGo t.toList .idle = [convertName t] := by
  obtain ⟨hne, hall⟩ := isIdentToken_parts ht
  obtain ⟨c, cs, hcs⟩ : ∃ c cs, t.toList = c :: cs := by
    rcases h : t.toList with _ | ⟨c, cs⟩
    · exact absurd h hne
    · exact ⟨c, cs, rfl⟩
  have hc : c ≠ '(' := identChar_ne_lparen (hall c (hcs ▸ List.mem_cons_self c cs))
  have hcs_nodot : '.' ∉ cs := by
    intro hmem
    exact identChar_ne_dot (hall '.' (hcs ▸ List.mem_cons_of_mem c hmem)) rfl
  have hmk : String.mk (c :: cs) = t := by rw [← hcs]; exact stringMk_toList t
  rw [hcs]
  calc parseGo (c :: cs) .idle
      = parseGo cs (.plain [c]) := by simp [parseGo, hc]
    _ = [convertName (String.mk ([c] ++ cs))] := parseGo_plain_end cs hcs_nodot [c]
    _ = [convertName t] := by rw [List.singleton_append, hmk]

theorem parsePath_dottedJoin : ∀ (tokens : List String), tokens ≠ [] →
    (∀ tk ∈ tokens, isIdentToken tk = true) →
    parsePath (dottedJoin tokens) = tokens.map convertName := by
  intro tokens
  induction tokens with
  | nil => intro h; exact absurd rfl h
  | cons t ts ih =>
      intro _ hall
      cases ts with
      | nil =>
          have ht := hall t (List.mem_cons_self t [])
          show parsePath (dottedJoin [t]) = [convertName t]
          have hd : dottedJoin [t] = t := rfl
          rw [hd]
          exact parseGo_ident_end t ht
      | cons t2 ts2 =>
          have ht := hall t (List.mem_cons_self t (t2 :: ts2))
          have hrest : ∀ tk ∈ t2 :: ts2, isIdentToken tk = true := fun tk h =>
            hall tk (List.mem_cons_of_mem t h)
          have hd : dottedJoin (t :: t2 :: ts2) = t ++ "." ++ dottedJoin (t2 :: ts2) := rfl
          have hlist : (dottedJoin (t :: t2 :: ts2)).toList =
              t.toList ++ '.' :: (dottedJoin (t2 :: ts2)).toList := by
            rw [hd, stringToList_append, stringToList_append]
            rw [show (".".toList) = ['.'] from rfl]
            simp
          unfold parsePath
          rw [hlist, parseGo_ident_dot t ht]
          have hih := ih (by simp) hrest
          unfold parsePath at hih
          rw [hih]
          simp

theorem convertName_ident_int_iff (t : String) (ht : isIdentToken t = true) :
    (∃ n, convertName t = .int n) ↔
      (t.toList.all Char.isDigit = true ∧ ¬(t.length > 1 ∧ t.toList.head? = some '0')) := by
  obtain ⟨hne, hall⟩ := isIdentToken_parts ht
  have hemp : t.toList.isEmpty = false := by
    cases h : t.toList with
    | nil => exact absurd h hne
    | cons c cs => rfl
  have hnl : (t.toList.getLast? == some '\n') = false := by
    cases hgl : t.toList.getLast? with
    | none => rfl
    | some c =>
        have hcmem : c ∈ t.toList := by
          obtain ⟨hh, heq⟩ := List.mem_getLast?_eq_getLast (l := t.toList) (x := c)
            (by rw [Option.mem_def, hgl])
          rw [heq]; exact List.getLast_mem hh
        have := hall c hcmem
        have hcn : c ≠ '\n' := by
          rintro rfl
          simp [Char.isAlphanum, Char.isAlpha, Char.isUpper, Char.isLower,
            Char.isDigit] at this
        simp [hcn]
  have hre : reDigitsMatch t = t.toList.all Char.isDigit := by
    simp only [reDigitsMatch, hnl, hemp]
    simp
  constructor
  · rintro ⟨n, hn⟩
    unfold convertName at hn
    rw [hre] at hn
    split_ifs at hn with h1 h2
    case _ =>
      refine ⟨h1, ?_⟩
      rintro ⟨hlen, hhead⟩
      refine h2 ?_
      simp only [Bool.and_eq_true, decide_eq_true_eq, beq_iff_eq]
      exact ⟨hlen, hhead⟩
  · rintro ⟨hd, hnot⟩
    refine ⟨intOfPyDigits t, ?_⟩
    unfold convertName
    rw [hre]
    have hcond : ¬((t.length > 1 && t.toList.head? == some '0') = true) := by
      simp only [Bool.and_eq_true, decide_eq_true_eq, beq_iff_eq, not_and]
      intro hlen hhead
      exact hnot ⟨hlen, hhead⟩
    rw [if_pos hd, if_neg hcond]

/-- C8: for path expressions built only of identifier tokens and dots,
`parse` yields one segment per dot-separated token, each converted to an int
iff it is all digits and not a multi-character token with a leading zero;
`"7"` becomes `7`, `"07"` stays `"07"`, `"0"` becomes `0`. -/
theorem c8_parse_ident_paths :
    (∀ tokens : List String, tokens ≠ [] → (∀ tk ∈ tokens, isIdentToken tk = true) →
        parsePath (dottedJoin tokens) = tokens.map convertName)
    ∧ (∀ t, isIdentToken t = true →
        ((∃ n, convertName t = .int n) ↔
          (t.toList.all Char.isDigit = true ∧ ¬(t.length > 1 ∧ t.toList.head? = some '0'))))
    ∧ convertName "7" = .int 7 ∧ convertName "07" = .str "07" ∧ convertName "0" = .int 0 :=
  ⟨parsePath_dottedJoin, convertName_ident_int_iff, by decide, by decide, by decide⟩

/-- Witness for C8 at the concrete expression `A.07.x.0`. -/
theorem c8_witness :
    parsePath (dottedJoin ["A", "07", "x", "0"]) =
      [Seg.str "A", Seg.str "07", Seg.str "x", Seg.int 0] := by
  have h := c8_parse_ident_paths.1 ["A", "07", "x", "0"] (by simp) (by decide)
  rw [h]; decide

/-- C9 counterexample: on an unterminated `(` the parser does *not* fail (the
code raises nothing — there is no `MalformedPathError` anywhere in it); the
group's characters silently become the final segment. -/
theorem c9_counterexample : parsePath "A.(x.y" = [Seg.str "A", Seg.str "x.y"] := by decide

/-- C9 (amended): a `(` that is never closed does not raise an error;
`takewhile` exhausts the iterator, so the characters after `(` up to the end
of the string become one final compound segment. -/
theorem c9_unterminated_paren_amended (rest : String) (h : ')' ∉ rest.toList) :
    parsePath ("A.(" ++ rest) = [Seg.str "A", convertName rest] := by
  unfold parsePath
  rw [stringToList_append]
  rw [show ("A.(".toList) = ['A', '.', '('] from rfl]
  calc parseGo (['A', '.', '('] ++ rest.toList) .idle
      = convertName (String.mk ['A']) :: parseGo rest.toList (.paren []) := by
        simp [parseGo]
    _ = [Seg.str "A", convertName rest] := by
        rw [parseGo_paren_end rest.toList h []]
        rw [List.nil_append, stringMk_toList]
        rw [show convertName (String.mk ['A']) = Seg.str "A" from by decide]

/-- Witness for the amended C9 at the concrete group `x.y`. -/
theorem c9_witness : parsePath ("A.(" ++ "x.y") = [Seg.str "A", Seg.str "x.y"] := by
  have h := c9_unterminated_paren_amended "x.y" (by decide)
  rw [h]; decide

/-! ### C4: strict-traversal failures -/

theorem traverseGet_append (segs : List Seg) (root : Node) (sg : Seg) :
    traverseGet root (segs ++ [sg]) =
      match traverseGet root segs with
      | .ok obj => getItem obj sg
      | .error e => .error e := by
  induction segs generalizing root with
  | nil =>
      simp only [List.nil_append, traverseGet]
      cases getItem root sg with
      | ok v => simp [traverseGet]
      | error e => rfl
  | cons s ss ih =>
      simp only [List.cons_append, traverseGet]
      cases getItem root s with
      | ok v => exact ih v
      | error e => rfl

/-- C4 (amended): with `create_missing` false, traversal fails with
`KeyError` when a key is absent from a mapping and with `IndexError` when an
int index is out of a list's range, and a string segment applied to a list
fails with `TypeError`; but an int segment applied to a mapping is *not* a
type mismatch: it is an ordinary key lookup, which succeeds whenever the
mapping has that int key (and raises `KeyError`, not `TypeError`, otherwise,
by the first conjunct). -/
theorem c4_traversal_errors_amended :
    (∀ (root : Node) (segs : List Seg) (entries : List (Seg × Node)) (sg : Seg),
        traverseGet root segs = .ok (.omap entries) →
        omapLookup sg entries = Option.none →
        traverseGet root (segs ++ [sg]) = .error (.keyError sg))
    ∧ (∀ (root : Node) (segs : List Seg) (elems : List Node) (n : Nat),
        traverseGet root segs = .ok (.list elems) →
        elems.length ≤ n →
        traverseGet root (segs ++ [.int n]) = .error .indexError)
    ∧ (∀ (root : Node) (segs : List Seg) (elems : List Node) (s : String),
        traverseGet root segs = .ok (.list elems) →
        traverseGet root (segs ++ [.str s]) =
          .error (.typeError "list indices must be integers or slices, not str"))
    ∧ (∀ (root : Node) (segs : List Seg) (entries : List (Seg × Node)) (n : Nat) (v : Node),
        traverseGet root segs = .ok (.omap entries) →
        omapLookup (.int n) entries = some v →
        traverseGet root (segs ++ [.int n]) = .ok v) := by
  refine ⟨?_, ?_, ?_, ?_⟩
  · intro root segs entries sg h hl
    rw [traverseGet_append, h]
    simp [getItem, hl]
  · intro root segs elems n h hl
    rw [traverseGet_append, h]
    have hn : elems.get? n = Option.none := by rw [List.get?_eq_none]; exact hl
    simp only [getItem]
    rw [hn]
  · intro root segs elems s h
    rw [traverseGet_append, h]
    simp [getItem]
  · intro root segs entries n v h hl
    rw [traverseGet_append, h]
    simp [getItem, hl]

/-- C4 counterexample: the claim predicts `TypeMismatchError` whenever an
integer segment is applied to a mapping, but traversing `A.0` over a mapping
whose `A` is a mapping with int key `0` simply succeeds. -/
theorem c4_counterexample :
    traverseGet (.omap [(.str "A", .omap [(.int 0, .str "v")])]) (parsePath "A.0") =
      .ok (.str "v") := rfl

/-- Witness for the amended C4: an absent key raises `KeyError`. -/
theorem c4_witness :
    traverseGet (.omap [(.str "A", .str "x")]) [Seg.str "B"] =
      .error (.keyError (.str "B")) := by
  have h := c4_traversal_errors_amended.1 (.omap [(.str "A", .str "x")]) []
    [(.str "A", .str "x")] (.str "B") rfl rfl
  simpa using h

/-! ### C6: the create-missing policy -/

/-- C6: when create-missing traversal must fill an absent mapping key, the
created container is chosen by the next segment's kind (an int next segment
gives a placeholder-padded list of length `next + 1`, any other next segment
gives an empty ordered mapping, both appended at the end); and growing a
list never shortens it and never overwrites a non-placeholder element. -/
theorem c6_create_missing_policy :
    (∀ (entries : List (Seg × Node)) (sg : Seg) (n : Nat),
        omapLookup sg entries = Option.none →
        getOrCreateSegment (.omap entries) sg (some (.int n)) .placeholder =
          .ok (.omap (entries ++ [(sg, .list (List.replicate (n + 1) .placeholder))]),
               .list (List.replicate (n + 1) .placeholder)))
    ∧ (∀ (entries : List (Seg × Node)) (sg : Seg) (next : Option Seg),
        (∀ n, next ≠ some (Seg.int n)) →
        omapLookup sg entries = Option.none →
        getOrCreateSegment (.omap entries) sg next .placeholder =
          .ok (.omap (entries ++ [(sg, .omap [])]), .omap []))
    ∧ (∀ (elems : List Node) (n : Nat) (next : Option Seg) (dflt : Node)
          (res val : Node),
        getOrCreateSegment (.list elems) (.int n) next dflt = .ok (res, val) →
        ∃ elems', res = .list elems' ∧ elems.length ≤ elems'.length ∧
          ∀ (j : Nat) (w : Node), elems.get? j = some w → w ≠ .placeholder →
            elems'.get? j = some w) := by
  refine ⟨?_, ?_, ?_⟩
  · intro entries sg n hl
    simp [getOrCreateSegment, hl, defaultFor]
  · intro entries sg next hnext hl
    have hdf : defaultFor next = .omap [] := by
      match next with
      | Option.none => rfl
      | some (.str s) => rfl
      | some (.int n) => exact absurd rfl (hnext n)
    simp [getOrCreateSegment, hl, hdf]
  · intro elems n next dflt res val h
    simp only [getOrCreateSegment] at h
    set grown := elems ++ List.replicate (n + 1 - elems.length) Node.placeholder with hg
    have hlen : elems.length ≤ grown.length := by
      rw [hg, List.length_append]; omega
    have hkeep : ∀ (j : Nat) (w : Node), elems.get? j = some w →
        grown.get? j = some w := by
      intro j w hj
      have hjlt : j < elems.length := by
        by_contra hge
        rw [List.get?_eq_none.mpr (by omega)] at hj
        exact Option.noConfusion hj
      rw [hg, List.get?_append hjlt]
      exact hj
    split at h
    next v0 hn =>
      split at h
      next hp =>
        simp only [Except.ok.injEq, Prod.mk.injEq] at h
        obtain ⟨hres, hval⟩ := h
        refine ⟨_, hres.symm, ?_, ?_⟩
        · rw [List.length_set]; exact hlen
        · intro j w hj hw
          by_cases hjn : j = n
          · subst hjn
            have hww := hkeep j w hj
            rw [hww] at hn
            injection hn with hn2
            subst hn2
            cases w with
            | placeholder => exact absurd rfl hw
            | _ => simp [Node.isPlaceholder] at hp
          · rw [List.get?_set_ne _ _ (fun he => hjn he.symm)]
            exact hkeep j w hj
      next hp =>
        simp only [Except.ok.injEq, Prod.mk.injEq] at h
        obtain ⟨hres, hval⟩ := h
        exact ⟨grown, hres.symm, hlen, fun j w hj _ => hkeep j w hj⟩
    next hn =>
      exact absurd h (by simp)

/-- Witness for C6: creating segment `X` with next segment `2` appends a
three-slot placeholder list. -/
theorem c6_witness :
    getOrCreateSegment (.omap []) (.str "X") (some (.int 2)) .placeholder =
      .ok (.omap [(.str "X", .list [Node.placeholder, Node.placeholder, Node.placeholder])],
           .list [Node.placeholder, Node.placeholder, Node.placeholder]) := by
  have h := c6_create_missing_policy.1 [] (.str "X") 2 rfl
  simpa [List.replicate] using h

/-! ### Ordered-mapping lemmas for the merge visitor -/

theorem omapLookup_none_forall {k : Seg} {m : List (Seg × Node)}
    (h : omapLookup k m = Option.none) : ∀ kv ∈ m, kv.1 ≠ k := by
  induction m with
  | nil => simp
  | cons kv0 rest ih =>
      simp only [omapLookup] at h
      by_cases h0 : kv0.1 = k
      · rw [if_pos h0] at h; exact Option.noConfusion h
      · rw [if_neg h0] at h
        intro kv hkv
        rcases List.mem_cons.mp hkv with rfl | hm
        · exact h0
        · exact ih h kv hm

theorem mem_omapErase_ne {k : Seg} {m : List (Seg × Node)} :
    ∀ kv ∈ omapErase k m, kv.1 ≠ k := by
  intro kv hkv
  simp only [omapErase, List.mem_filter, Bool.not_eq_eq_eq_not, Bool.not_true,
    beq_eq_false_iff_ne, ne_eq] at hkv
  exact hkv.2

theorem omapErase_of_absent {k : Seg} {m : List (Seg × Node)}
    (h : omapLookup k m = Option.none) : omapErase k m = m := by
  have hall := omapLookup_none_forall h
  apply List.filter_eq_self.mpr
  intro kv hkv
  simp [hall kv hkv]

theorem omapErase_append (k : Seg) (l1 l2 : List (Seg × Node)) :
    omapErase k (l1 ++ l2) = omapErase k l1 ++ omapErase k l2 := by
  simp [omapErase]

theorem omapErase_single_self (k : Seg) (v : Node) : omapErase k [(k, v)] = [] := by
  simp [omapErase]

theorem omapSet_append (k : Seg) (v : Node) (l1 l2 : List (Seg × Node)) :
    omapSet k v (l1 ++ l2) = omapSet k v l1 ++ omapSet k v l2 := by
  simp [omapSet]

theorem omapSet_single_self (k : Seg) (v w : Node) :
    omapSet k v [(k, w)] = [(k, v)] := by
  simp [omapSet]

theorem omapSet_of_absent {k : Seg} {l : List (Seg × Node)}
    (hall : ∀ kv ∈ l, kv.1 ≠ k) (v : Node) : omapSet k v l = l := by
  induction l with
  | nil => rfl
  | cons kv rest ih =>
      simp only [omapSet, List.map_cons]
      rw [if_neg (hall kv (List.mem_cons_self kv rest))]
      have := ih (fun kv2 h2 => hall kv2 (List.mem_cons_of_mem kv h2))
      simp only [omapSet] at this
      rw [this]

theorem omapHasKey_append_last (k : Seg) (w : Node) (l : List (Seg × Node)) :
    omapHasKey k (l ++ [(k, w)]) = true := by
  simp [omapHasKey]

/-- One-step unfolding of `_traverse` at the final path segment, as called
from `load` (`create_missing=True`, `default=None`). -/
theorem applySetting_cons_nil (k : Seg) (obj value : Node) :
    applySetting [k] obj value =
      match getOrCreateSegment obj k Option.none Node.none with
      | .error e => .error e
      | .ok (obj₁, val) =>
          let obj₂ := match obj₁ with
            | .omap entries => Node.omap (omapErase k entries ++ [(k, val)])
            | other => other
          match setSeg obj₂ k value with
          | .error e => .error e
          | .ok obj₃ =>
              .ok (obj₃, match val with
                | .localSetting dflt _ => [(Node.localSetting dflt value, k)]
                | _ => []) := rfl

/-- One-step unfolding of `_traverse` at an intermediate path segment. -/
theorem applySetting_cons_cons (p k : Seg) (obj value : Node) :
    applySetting [p, k] obj value =
      match getOrCreateSegment obj p (some k) Node.placeholder with
      | .error e => .error e
      | .ok (obj₁, val) =>
          let obj₂ := match obj₁ with
            | .omap entries => Node.omap (omapErase p entries ++ [(p, val)])
            | other => other
          match applySetting [k] val value with
          | .error e => .error e
          | .ok (val', regs) =>
              match setSeg obj₂ p val' with
              | .error e => .error e
              | .ok obj₃ => .ok (obj₃, regs) := rfl

/-- The write step of `load`'s visitor on a single-segment path: the key is
moved to the end of its container (`move_to_end` + in-place write), the
value replaced, and a `LocalSetting` occupant recorded in the registry. -/
theorem applySetting_single (k : Seg) (entries : List (Seg × Node)) (v : Node) :
    applySetting [k] (.omap entries) v =
      .ok (.omap (omapErase k entries ++ [(k, v)]),
        match omapLookup k entries with
        | some (.localSetting d _) => [(Node.localSetting d v, k)]
        | _ => []) := by
  cases hl : omapLookup k entries with
  | none =>
      have herase : omapErase k entries = entries := omapErase_of_absent hl
      have hall := omapLookup_none_forall hl
      simp [applySetting_cons_nil, getOrCreateSegment, hl, setSeg,
        omapHasKey_append_last, omapErase_append, omapErase_single_self, herase,
        omapSet_append, omapSet_of_absent hall, omapSet_single_self]
  | some val =>
      have hall := mem_omapErase_ne (k := k) (m := entries)
      simp only [applySetting_cons_nil, getOrCreateSegment, hl, setSeg,
        omapHasKey_append_last, omapSet_append, omapSet_of_absent hall,
        omapSet_single_self, if_true]
      cases val <;> simp

/-- The same write one level deep: the intermediate container is reordered
(`move_to_end` on the intermediate segment) and the inner write goes through
`applySetting_single`. -/
theorem applySetting_nested (entries inner : List (Seg × Node)) (p k : Seg) (v : Node)
    (hp : omapLookup p entries = some (.omap inner)) :
    applySetting [p, k] (.omap entries) v =
      .ok (.omap (omapErase p entries ++
            [(p, .omap (omapErase k inner ++ [(k, v)]))]),
        match omapLookup k inner with
        | some (.localSetting d _) => [(Node.localSetting d v, k)]
        | _ => []) := by
  have hall := mem_omapErase_ne (k := p) (m := entries)
  have hsingle := applySetting_single k inner v
  simp [applySetting_cons_cons, getOrCreateSegment, hp, hsingle, setSeg,
    omapHasKey_append_last, omapSet_append, omapSet_of_absent hall,
    omapSet_single_self]

/-- C5: whenever a setting is written during the merge, its ordered-mapping
container is reordered so that the written key now comes after every other
sibling (the entry is removed and re-appended at the end, then written);
this holds at the top level (first conjunct) and for the final container of
a deeper path (third conjunct, which also shows the intermediate segment
being moved to the end of the outer container); concretely, base settings
`{A, B}` with an override file that sets `A` load to key order `[B, A]`
(second conjunct). -/
theorem c5_reorder_on_write :
    (∀ (entries : List (Seg × Node)) (k : Seg) (v : Node),
        applySetting [k] (.omap entries) v =
          .ok (.omap (omapErase k entries ++ [(k, v)]),
            match omapLookup k entries with
            | some (.localSetting d _) => [(Node.localSetting d v, k)]
            | _ => []))
    ∧ load 3 (CfgFile.mk [] [("A", Node.str "x")])
          [("A", Node.str "1"), ("B", Node.str "2")] resolve0 =
        .ok (.omap [(.str "B", .str "2"), (.str "A", .str "x")], [])
    ∧ (∀ (entries inner : List (Seg × Node)) (p k : Seg) (v : Node),
        omapLookup p entries = some (.omap inner) →
        applySetting [p, k] (.omap entries) v =
          .ok (.omap (omapErase p entries ++
                [(p, .omap (omapErase k inner ++ [(k, v)]))]),
            match omapLookup k inner with
            | some (.localSetting d _) => [(Node.localSetting d v, k)]
            | _ => [])) :=
  ⟨fun entries k v => applySetting_single k entries v, rfl,
   fun entries inner p k v hp => applySetting_nested entries inner p k v hp⟩

/-- Witness for C5 at a concrete two-level write: the intermediate key `P`
stays (moved to the end of a one-entry map) and the inner key `k` is moved
behind its sibling `m`. -/
theorem c5_witness :
    applySetting [Seg.str "P", Seg.str "k"]
        (.omap [(.str "P", .omap [(.str "k", .str "old"), (.str "m", .str "q")])])
        (.str "new") =
      .ok (.omap [(.str "P",
            .omap [(.str "m", .str "q"), (.str "k", .str "new")])], []) := by
  have h := c5_reorder_on_write.2.2
    [(.str "P", .omap [(.str "k", .str "old"), (.str "m", .str "q")])]
    [(.str "k", .str "old"), (.str "m", .str "q")]
    (.str "P") (.str "k") (.str "new") rfl
  simpa [omapErase, omapLookup] using h

/-! ### C2: the placeholder sentinel is observable -/

/-- Whether any element of any sequence in the tree is the placeholder
sentinel (fuel-capped recursion over the tree). -/
def hasPlaceholderElem : Nat → Node → Bool
  | 0, _ => false
  | fuel + 1, .list elems =>
      elems.any (fun e => e.isPlaceholder) || elems.any (hasPlaceholderElem fuel)
  | fuel + 1, .omap entries => entries.any (fun kv => hasPlaceholderElem fuel kv.2)
  | _ + 1, _ => false

theorem get?_replicate_self (a : Node) : ∀ n, (List.replicate (n + 1) a).get? n = some a := by
  intro n
  induction n with
  | zero => rfl
  | succ m ih =>
      rw [List.replicate_succ]
      simpa only [List.get?_cons_succ] using ih

theorem replicate_succ_set (n : Nat) (a b : Node) :
    (List.replicate (n + 1) a).set n b = List.replicate n a ++ [b] := by
  induction n with
  | zero => rfl
  | succ m ih =>
      rw [List.replicate_succ, List.set_cons_succ, ih]
      rw [show List.replicate (m + 1) a = a :: List.replicate m a from List.replicate_succ ..]
      simp

/-- C2 counterexample: loading a file whose only entry writes index 1 of an
auto-created list returns a tree in which index 0 of that list *is* the
placeholder sentinel — the sentinel is observable in `load`'s result. -/
theorem c2_counterexample :
    load 3 (CfgFile.mk [] [("X.1", Node.str "v")]) [] resolve0 =
      .ok (.omap [(.str "X", .list [Node.placeholder, Node.str "v"])], []) ∧
    hasPlaceholderElem 2
      (.omap [(.str "X", .list [Node.placeholder, Node.str "v"])]) = true :=
  ⟨rfl, rfl⟩

/-- C2 (amended): the sentinel is only unobservable when every auto-created
list slot is eventually assigned; in general, writing only index `n` of an
auto-created list leaves the sentinel in all `n` slots below it in the
merged tree (they are created as padding and never overwritten). -/
theorem c2_placeholder_amended :
    ∀ (n : Nat) (v : Node),
      applySetting [Seg.str "X", Seg.int n] (.omap []) v =
        .ok (.omap [(.str "X",
              .list (List.replicate n Node.placeholder ++ [v]))], []) := by
  intro n v
  have hget : (List.replicate (n + 1) Node.placeholder).get? n =
      some Node.placeholder := get?_replicate_self Node.placeholder n
  have hinner : applySetting [Seg.int n]
      (.list (List.replicate (n + 1) Node.placeholder)) v =
      .ok (.list (List.replicate n Node.placeholder ++ [v]), []) := by
    simp only [applySetting_cons_nil, getOrCreateSegment, Nat.sub_self,
      List.replicate_zero, List.append_nil, hget, Node.isPlaceholder, if_true,
      setSeg, List.set_set, List.length_set, List.length_replicate]
    rw [if_pos (Nat.lt_succ_self n)]
    simp [replicate_succ_set]
  simp [applySetting_cons_cons, getOrCreateSegment, omapLookup, defaultFor,
    hinner, setSeg, omapHasKey, omapErase, omapSet]

/-! ### C10: the uppercase seeding filter -/

/-- C10: `load` seeds its result with exactly the base entries whose key
satisfies Python's `str.isupper` (at least one cased character and no
lowercase one), in their original order; keys with no cased characters at
all ("123", "_") are dropped exactly like lower- and mixed-case keys. -/
theorem c10_seed_isupper :
    (∀ (base : List (String × Node)) (k : String) (v : Node),
        (Seg.str k, v) ∈ seedSettings base ↔ ((k, v) ∈ base ∧ pyIsupper k = true))
    ∧ (∀ base : List (String × Node),
        ((seedSettings base).map Prod.fst).Sublist
          (base.map (fun kv => Seg.str kv.1)))
    ∧ (∀ k : String, (∀ c ∈ k.toList, isCased c = false) → pyIsupper k = false)
    ∧ load 3 (CfgFile.mk [] [])
          [("123", Node.int 1), ("_", Node.int 2), ("a", Node.int 3),
           ("Mixed", Node.int 4), ("AB_C1", Node.int 5)] resolve0 =
        .ok (.omap [(.str "AB_C1", Node.int 5)], []) := by
  refine ⟨?_, ?_, ?_, rfl⟩
  · intro base k v
    constructor
    · intro h
      simp only [seedSettings, List.mem_map, List.mem_filter] at h
      obtain ⟨⟨k2, v2⟩, ⟨hmem, hup⟩, heq⟩ := h
      simp only [Prod.mk.injEq, Seg.str.injEq] at heq
      obtain ⟨rfl, rfl⟩ := heq
      exact ⟨hmem, hup⟩
    · rintro ⟨hmem, hup⟩
      simp only [seedSettings, List.mem_map, List.mem_filter]
      exact ⟨(k, v), ⟨hmem, hup⟩, rfl⟩
  · intro base
    have h := (List.filter_sublist (l := base) (p := fun kv => pyIsupper kv.1)).map
      (fun kv : String × Node => Seg.str kv.1)
    simpa [seedSettings, List.map_map, Function.comp] using h
  · intro k h
    unfold pyIsupper
    have hany : k.toList.any isCased = false := by
      simp only [List.any_eq_false]
      intro c hc
      simp [h c hc]
    simp only [Bool.and_eq_false_iff]
    exact Or.inl hany

/-- Witness for C10: caseless keys are rejected by the filter predicate. -/
theorem c10_witness : pyIsupper "123" = false ∧ pyIsupper "_" = false := by
  constructor
  · exact c10_seed_isupper.2.2.1 "123" (by decide)
  · exact c10_seed_isupper.2.2.1 "_" (by decide)

/-! ### C7: interpolation lemmas -/

/-- Every key of the context is a string (always true of the top-level
settings `load` passes as the interpolation context, whose seeded and merged
top-level names are strings). -/
def ctxAllStrKeys (ctx : List (Seg × Node)) : Bool :=
  ctx.all (fun kv => match kv.1 with | .str _ => true | _ => false)

theorem omapLookup_none_iff_hasKey_false {k : Seg} {m : List (Seg × Node)} :
    omapLookup k m = Option.none ↔ omapHasKey k m = false := by
  induction m with
  | nil => simp [omapLookup, omapHasKey]
  | cons kv rest ih =>
      by_cases h : kv.1 = k
      · simp [omapLookup, omapHasKey, h]
      · simp [omapLookup, omapHasKey, h] at ih ⊢
        exact ih

theorem ctx_no_int_keys {ctx : List (Seg × Node)} (h : ctxAllStrKeys ctx = true) :
    (ctx.any (fun kv => match kv.1 with | .int _ => true | _ => false)) = false := by
  simp only [List.any_eq_false]
  intro kv hkv
  have := List.all_eq_true.mp h kv hkv
  cases hk : kv.1 with
  | str s => simp
  | int n => rw [hk] at this; exact absurd this (by simp)

theorem identChar_ne_meta {c : Char} (h : (c.isAlphanum || c = '_') = true) :
    (c ≠ '.' && c ≠ '[' && c ≠ ':' && c ≠ '!') = true := by
  have h4 : c ≠ '.' ∧ c ≠ '[' ∧ c ≠ ':' ∧ c ≠ '!' := by
    refine ⟨?_, ?_, ?_, ?_⟩ <;> rintro rfl <;>
      simp [Char.isAlphanum, Char.isAlpha, Char.isUpper, Char.isLower,
        Char.isDigit] at h
  simp [h4.1, h4.2.1, h4.2.2.1, h4.2.2.2]

/-- On a simple `\x7bNAME\x7d` field, `renderField` is exactly: look the
name up among the keyword arguments, render on success, `KeyError` on a
missing name. -/
theorem renderField_simple (strFuel : Nat) (nm : String) (ctx : List (Seg × Node))
    (hs : isSimpleFieldName nm = true) :
    renderField strFuel nm ctx =
      match omapLookup (.str nm) ctx with
      | some v => .ok (pyStr strFuel v)
      | Option.none => .error (.keyError (.str nm)) := by
  simp only [isSimpleFieldName, Bool.and_eq_true, Bool.not_eq_true',
    List.all_eq_true] at hs
  obtain ⟨⟨hne, hall⟩, hnd⟩ := hs
  have htw : nm.toList.takeWhile
      (fun c => c ≠ '.' && c ≠ '[' && c ≠ ':' && c ≠ '!') = nm.toList := by
    rw [List.takeWhile_eq_self_iff]
    intro c hc
    simpa using identChar_ne_meta (hall c hc)
  have hguard : (nm.toList.isEmpty || nm.toList.all Char.isDigit) = false := by
    rw [hne, hnd]; rfl
  simp only [renderField, htw]
  rw [if_neg (show ¬((nm.toList.isEmpty || nm.toList.all Char.isDigit) = true) from by
        rw [hguard]; exact Bool.false_ne_true),
    stringMk_toList]
  cases hlook : omapLookup (.str nm) ctx with
  | none => rfl
  | some v =>
      show (if nm.toList.length = nm.length then Except.ok (pyStr strFuel v)
          else Except.error PyErr.attributeError) = Except.ok (pyStr strFuel v)
      rw [if_pos (show nm.toList.length = nm.length from rfl)]

theorem omapHasKey_of_lookup {k : Seg} {m : List (Seg × Node)} {v : Node}
    (h : omapLookup k m = some v) : omapHasKey k m = true := by
  by_contra hne
  have : omapHasKey k m = false := by
    cases h2 : omapHasKey k m
    · rfl
    · exact absurd h2 hne
  rw [omapLookup_none_iff_hasKey_false.mpr this] at h
  exact Option.noConfusion h

/-- Rendering a parsed template with only simple fields succeeds iff every
referenced name is a key of the context. -/
theorem mapM_renderItem_ok_iff (strFuel : Nat) (ctx : List (Seg × Node)) :
    ∀ items : List FmtItem,
      (∀ nm ∈ itemsFields items, isSimpleFieldName nm = true) →
      ((∃ s, items.mapM (renderItem strFuel ctx) = .ok s) ↔
        ∀ nm ∈ itemsFields items, omapHasKey (.str nm) ctx = true) := by
  intro items
  induction items with
  | nil =>
      intro _
      constructor
      · intro _ nm hnm
        simp [itemsFields] at hnm
      · intro _
        exact ⟨[], rfl⟩
  | cons it rest ih =>
      intro hsimple
      cases it with
      | lit c =>
          have hsimple' : ∀ nm ∈ itemsFields rest, isSimpleFieldName nm = true :=
            fun nm hnm => hsimple nm hnm
          constructor
          · rintro ⟨s, hs⟩
            intro nm hnm
            cases hrest : rest.mapM (renderItem strFuel ctx) with
            | ok s2 => exact ((ih hsimple').mp ⟨s2, hrest⟩) nm hnm
            | error e =>
                rw [List.mapM_cons] at hs
                simp only [renderItem] at hs
                rw [hrest] at hs
                exact Except.noConfusion hs
          · intro hdef
            obtain ⟨s2, hrest⟩ := (ih hsimple').mpr (fun nm hnm => hdef nm hnm)
            refine ⟨String.mk [c] :: s2, ?_⟩
            rw [List.mapM_cons]
            simp only [renderItem]
            rw [hrest]
            rfl
      | field nm =>
          have hsimple' : ∀ nm2 ∈ itemsFields rest, isSimpleFieldName nm2 = true :=
            fun nm2 hnm2 => hsimple nm2 (List.mem_cons_of_mem nm hnm2)
          have hnm_simple : isSimpleFieldName nm = true :=
            hsimple nm (List.mem_cons_self nm (itemsFields rest))
          have hrf := renderField_simple strFuel nm ctx hnm_simple
          cases hlook : omapLookup (.str nm) ctx with
          | some v =>
              rw [hlook] at hrf
              constructor
              · rintro ⟨s, hs⟩
                intro nm2 hnm2
                rcases List.mem_cons.mp hnm2 with rfl | hm
                · exact omapHasKey_of_lookup hlook
                · cases hrest : rest.mapM (renderItem strFuel ctx) with
                  | ok s2 => exact ((ih hsimple').mp ⟨s2, hrest⟩) nm2 hm
                  | error e =>
                      rw [List.mapM_cons] at hs
                      simp only [renderItem] at hs
                      rw [hrf, hrest] at hs
                      exact Except.noConfusion hs
              · intro hdef
                obtain ⟨s2, hrest⟩ :=
                  (ih hsimple').mpr (fun nm2 h2 => hdef nm2 (List.mem_cons_of_mem nm h2))
                refine ⟨pyStr strFuel v :: s2, ?_⟩
                rw [List.mapM_cons]
                simp only [renderItem]
                rw [hrf, hrest]
                rfl
          | none =>
              rw [hlook] at hrf
              constructor
              · rintro ⟨s, hs⟩
                rw [List.mapM_cons] at hs
                simp only [renderItem] at hs
                rw [hrf] at hs
                exact Except.noConfusion hs
              · intro hdef
                have hk := hdef nm (List.mem_cons_self nm (itemsFields rest))
                rw [omapLookup_none_iff_hasKey_false.mp hlook] at hk
                exact absurd hk (by simp)

/-- When rendering fails and all fields are simple, the failure is a
`KeyError` naming an (undefined) referenced field. -/
theorem mapM_renderItem_err (strFuel : Nat) (ctx : List (Seg × Node)) :
    ∀ items : List FmtItem,
      (∀ nm ∈ itemsFields items, isSimpleFieldName nm = true) →
      (¬ ∃ s, items.mapM (renderItem strFuel ctx) = .ok s) →
      ∃ nm, items.mapM (renderItem strFuel ctx) = .error (.keyError (.str nm)) := by
  intro items
  induction items with
  | nil =>
      intro _ hno
      exact absurd ⟨[], rfl⟩ hno
  | cons it rest ih =>
      intro hsimple hno
      cases it with
      | lit c =>
          have hsimple' : ∀ nm ∈ itemsFields rest, isSimpleFieldName nm = true :=
            fun nm hnm => hsimple nm hnm
          cases hrest : rest.mapM (renderItem strFuel ctx) with
          | ok s2 =>
              refine absurd ⟨String.mk [c] :: s2, ?_⟩ hno
              rw [List.mapM_cons]
              simp only [renderItem]
              rw [hrest]
              rfl
          | error e =>
              obtain ⟨nm, hnm⟩ := ih hsimple' (by
                rintro ⟨s2, hs2⟩
                rw [hs2] at hrest
                exact Except.noConfusion hrest)
              refine ⟨nm, ?_⟩
              rw [List.mapM_cons]
              simp only [renderItem]
              rw [hnm]
              rfl
      | field nm =>
          have hsimple' : ∀ nm2 ∈ itemsFields rest, isSimpleFieldName nm2 = true :=
            fun nm2 hnm2 => hsimple nm2 (List.mem_cons_of_mem nm hnm2)
          have hnm_simple : isSimpleFieldName nm = true :=
            hsimple nm (List.mem_cons_self nm (itemsFields rest))
          have hrf := renderField_simple strFuel nm ctx hnm_simple
          cases hlook : omapLookup (.str nm) ctx with
          | some v =>
              rw [hlook] at hrf
              cases hrest : rest.mapM (renderItem strFuel ctx) with
              | ok s2 =>
                  refine absurd ⟨pyStr strFuel v :: s2, ?_⟩ hno
                  rw [List.mapM_cons]
                  simp only [renderItem]
                  rw [hrf, hrest]
                  rfl
              | error e =>
                  obtain ⟨nm2, hnm2⟩ := ih hsimple' (by
                    rintro ⟨s2, hs2⟩
                    rw [hs2] at hrest
                    exact Except.noConfusion hrest)
                  refine ⟨nm2, ?_⟩
                  rw [List.mapM_cons]
                  simp only [renderItem]
                  rw [hrf, hnm2]
                  rfl
          | none =>
              rw [hlook] at hrf
              refine ⟨nm, ?_⟩
              rw [List.mapM_cons]
              simp only [renderItem]
              rw [hrf]
              rfl

theorem mem_itemsFields {items : List FmtItem} {nm : String}
    (h : nm ∈ itemsFields items) : FmtItem.field nm ∈ items := by
  induction items with
  | nil => simp [itemsFields] at h
  | cons it rest ih =>
      cases it with
      | lit c => exact List.mem_cons_of_mem _ (ih h)
      | field nm2 =>
          rcases List.mem_cons.mp h with rfl | hm
          · exact List.mem_cons_self _ _
          · exact List.mem_cons_of_mem _ (ih hm)

theorem fmtWF_parts {t : String} (h : fmtWF t = true) :
    ∃ items, fmtGo t.toList .text = .ok items ∧
      (∀ nm ∈ itemsFields items, isSimpleFieldName nm = true) := by
  unfold fmtWF at h
  cases hg : fmtGo t.toList .text with
  | error e => rw [hg] at h; exact absurd h (by simp)
  | ok items =>
      rw [hg] at h
      refine ⟨items, rfl, ?_⟩
      intro nm hnm
      exact List.all_eq_true.mp h (.field nm) (mem_itemsFields hnm)

theorem pyFormat_shape (strFuel : Nat) {t : String} {ctx : List (Seg × Node)}
    {items : List FmtItem} (hg : fmtGo t.toList .text = .ok items)
    (hctx : ctxAllStrKeys ctx = true) :
    pyFormat strFuel t ctx =
      match items.mapM (renderItem strFuel ctx) with
      | .error e => Except.error e
      | .ok parts => Except.ok (String.join parts) := by
  unfold pyFormat
  rw [if_neg (show ¬((ctx.any fun kv =>
        match kv.1 with | .int _ => true | _ => false) = true) from by
      rw [ctx_no_int_keys hctx]; exact Bool.false_ne_true), hg]

theorem isOk_map (f : String → Node) (e : Except PyErr String) :
    ((e.map f).isOk) = e.isOk := by cases e <;> rfl

theorem pyFormat_ok_iff (strFuel : Nat) {t : String} {ctx : List (Seg × Node)}
    (hwf : fmtWF t = true) (hctx : ctxAllStrKeys ctx = true) :
    ((pyFormat strFuel t ctx).isOk = true ↔
      ∀ nm ∈ fmtRefs t, omapHasKey (.str nm) ctx = true) := by
  obtain ⟨items, hg, hsimple⟩ := fmtWF_parts hwf
  have hrefs : fmtRefs t = itemsFields items := by unfold fmtRefs; rw [hg]
  rw [pyFormat_shape strFuel hg hctx, hrefs]
  cases hm : items.mapM (renderItem strFuel ctx) with
  | ok s =>
      constructor
      · intro _
        exact (mapM_renderItem_ok_iff strFuel ctx items hsimple).mp ⟨s, hm⟩
      · intro _
        rfl
  | error e =>
      constructor
      · intro hok
        exact Bool.noConfusion hok
      · intro hdef
        obtain ⟨s, hm2⟩ := (mapM_renderItem_ok_iff strFuel ctx items hsimple).mpr hdef
        rw [hm] at hm2
        exact Except.noConfusion hm2

theorem pyFormat_err (strFuel : Nat) {t : String} {ctx : List (Seg × Node)}
    (hwf : fmtWF t = true) (hctx : ctxAllStrKeys ctx = true)
    (hfail : ¬ ∀ nm ∈ fmtRefs t, omapHasKey (.str nm) ctx = true) :
    ∃ nm, pyFormat strFuel t ctx = .error (.keyError (.str nm)) := by
  obtain ⟨items, hg, hsimple⟩ := fmtWF_parts hwf
  have hrefs : fmtRefs t = itemsFields items := by unfold fmtRefs; rw [hg]
  have hno : ¬ ∃ s, items.mapM (renderItem strFuel ctx) = .ok s := by
    intro hex
    refine hfail ?_
    rw [hrefs]
    exact (mapM_renderItem_ok_iff strFuel ctx items hsimple).mp hex
  obtain ⟨nm, hnm⟩ := mapM_renderItem_err strFuel ctx items hsimple hno
  refine ⟨nm, ?_⟩
  rw [pyFormat_shape strFuel hg hctx, hnm]

/-- C7: interpolating a string whose template references a name not defined
in the context fails with a hard `KeyError` (the spec's
`UnresolvedInterpolation`) — there is no partial or silent substitution —
and when every referenced name is defined the single `format` pass succeeds
(first conjunct, an equivalence).  Substitution is one pass only: a value
substituted in is not re-interpolated, so `\x7bA\x7d` with `A = "\x7bB\x7d"`
yields the literal `"\x7bB\x7d"` (last conjunct); the spec's own
worked instance is the third conjunct. -/
theorem c7_interpolation :
    (∀ (fuel : Nat) (t : String) (ctx : List (Seg × Node)),
        fmtWF t = true → ctxAllStrKeys ctx = true →
        ((interpValue (fuel + 1) (.str t) ctx).isOk = true ↔
          ∀ nm ∈ fmtRefs t, omapHasKey (.str nm) ctx = true))
    ∧ (∀ (fuel : Nat) (t : String) (ctx : List (Seg × Node)),
        fmtWF t = true → ctxAllStrKeys ctx = true →
        (¬ ∀ nm ∈ fmtRefs t, omapHasKey (.str nm) ctx = true) →
        ∃ nm, interpValue (fuel + 1) (.str t) ctx = .error (.keyError (.str nm)))
    ∧ interpValue 2 (.str "{PACKAGE}/x") [(.str "PACKAGE", .str "local_settings")] =
        .ok (.str "local_settings/x")
    ∧ interpValue 2 (.str "{A}") [(.str "A", .str "{B}"), (.str "B", .str "x")] =
        .ok (.str "{B}") := by
  refine ⟨?_, ?_, rfl, rfl⟩
  · intro fuel t ctx hwf hctx
    have hiv : interpValue (fuel + 1) (.str t) ctx = (pyFormat fuel t ctx).map Node.str := rfl
    rw [hiv, isOk_map]
    exact pyFormat_ok_iff fuel hwf hctx
  · intro fuel t ctx hwf hctx hfail
    obtain ⟨nm, hnm⟩ := pyFormat_err fuel hwf hctx hfail
    refine ⟨nm, ?_⟩
    have hiv : interpValue (fuel + 1) (.str t) ctx = (pyFormat fuel t ctx).map Node.str := rfl
    rw [hiv, hnm]
    rfl

/-- Witness for C7: a template referencing the undefined name `MISSING`
does not interpolate successfully. -/
theorem c7_witness :
    (interpValue 2 (.str "{MISSING}/x")
      [(.str "PACKAGE", .str "local_settings")]).isOk = false := by
  rw [Bool.eq_false_iff]
  intro hok
  have h := (c7_interpolation.1 1 "{MISSING}/x"
    [(.str "PACKAGE", .str "local_settings")] (by decide) (by decide)).mp hok
  exact absurd h (by decide)

/-! ### C1/C3: `read_file` and `OrderedDict.update` lemmas -/

/-- The keys of a section mapping are distinct (true of every mapping
configparser or `OrderedDict.update` produces). -/
def sKeysNodup (m : List (String × Node)) : Prop := (m.map Prod.fst).Nodup

instance (m : List (String × Node)) : Decidable (sKeysNodup m) := by
  unfold sKeysNodup; infer_instance

theorem sLookup_append (k : String) (a b : List (String × Node)) :
    sLookup k (a ++ b) =
      match sLookup k a with
      | some v => some v
      | Option.none => sLookup k b := by
  induction a with
  | nil => simp [sLookup]
  | cons kv rest ih =>
      by_cases h : kv.1 = k
      · simp [sLookup, h]
      · simp only [List.cons_append, sLookup, if_neg h]
        exact ih

theorem sLookup_none_iff_sHasKey_false {k : String} {m : List (String × Node)} :
    sLookup k m = Option.none ↔ sHasKey k m = false := by
  induction m with
  | nil => simp [sLookup, sHasKey]
  | cons kv rest ih =>
      by_cases h : kv.1 = k
      · simp [sLookup, sHasKey, h]
      · simp [sLookup, sHasKey, h] at ih ⊢
        exact ih

theorem sLookup_notmem_none {k : String} {m : List (String × Node)}
    (h : k ∉ m.map Prod.fst) : sLookup k m = Option.none := by
  induction m with
  | nil => rfl
  | cons kv rest ih =>
      simp only [List.map_cons, List.mem_cons] at h
      push_neg at h
      have hne : ¬(kv.1 = k) := fun he => h.1 he.symm
      simp only [sLookup, if_neg hne]
      exact ih h.2

theorem sLookup_map_self (k : String) (v : Node) :
    ∀ m : List (String × Node), sHasKey k m = true →
      sLookup k (m.map (fun kv => if kv.1 = k then (k, v) else kv)) = some v := by
  intro m
  induction m with
  | nil => intro h; simp [sHasKey] at h
  | cons kv rest ih =>
      intro h
      by_cases hk : kv.1 = k
      · simp [sLookup, hk]
      · have hrest : sHasKey k rest = true := by
          simp only [sHasKey, List.any_cons, Bool.or_eq_true, beq_iff_eq] at h
          rcases h with h | h
          · exact absurd h hk
          · simpa [sHasKey] using h
        simp only [List.map_cons, if_neg hk, sLookup, if_neg hk]
        exact ih hrest

theorem sLookup_map_ne (k k2 : String) (v : Node) (hne : k2 ≠ k) :
    ∀ m : List (String × Node),
      sLookup k2 (m.map (fun kv => if kv.1 = k then (k, v) else kv)) = sLookup k2 m := by
  intro m
  induction m with
  | nil => rfl
  | cons kv rest ih =>
      by_cases hk : kv.1 = k
      · simp only [List.map_cons, if_pos hk, sLookup,
          if_neg (fun he : k = k2 => hne he.symm), if_neg (fun he : kv.1 = k2 => hne (hk ▸ he).symm)]
        exact ih
      · simp only [List.map_cons, if_neg hk, sLookup]
        by_cases h2 : kv.1 = k2
        · simp [h2]
        · simp only [if_neg h2]
          exact ih

theorem sLookup_sSet_self (k : String) (v : Node) (m : List (String × Node)) :
    sLookup k (sSet k v m) = some v := by
  unfold sSet
  by_cases h : sHasKey k m = true
  · rw [if_pos h]
    exact sLookup_map_self k v m h
  · rw [if_neg h]
    rw [sLookup_append]
    rw [sLookup_none_iff_sHasKey_false.mpr (by
      cases h2 : sHasKey k m
      · rfl
      · exact absurd h2 h)]
    simp [sLookup]

theorem sLookup_sSet_ne (k k2 : String) (v : Node) (m : List (String × Node))
    (hne : k2 ≠ k) : sLookup k2 (sSet k v m) = sLookup k2 m := by
  unfold sSet
  by_cases h : sHasKey k m = true
  · rw [if_pos h]
    exact sLookup_map_ne k k2 v hne m
  · rw [if_neg h, sLookup_append]
    cases hm : sLookup k2 m with
    | some w => rfl
    | none =>
        have hne2 : ¬(k = k2) := fun he => hne he.symm
        simp [sLookup, hne2]

theorem sHasKey_iff_mem {k : String} {m : List (String × Node)} :
    sHasKey k m = true ↔ k ∈ m.map Prod.fst := by
  simp [sHasKey, List.any_eq_true, List.mem_map, beq_iff_eq]

theorem sHasKey_append (k : String) (a b : List (String × Node)) :
    sHasKey k (a ++ b) = (sHasKey k a || sHasKey k b) := by
  simp [sHasKey]

theorem keys_sSet (k : String) (v : Node) (m : List (String × Node)) :
    (sSet k v m).map Prod.fst =
      if sHasKey k m then m.map Prod.fst else m.map Prod.fst ++ [k] := by
  unfold sSet
  by_cases h : sHasKey k m = true
  · rw [if_pos h, if_pos h, List.map_map]
    apply List.map_congr_left
    intro kv _
    by_cases hk : kv.1 = k
    · simp [hk]
    · simp [hk]
  · rw [if_neg h, if_neg h]
    simp

theorem sHasKey_sSet_ne (k k2 : String) (v : Node) (m : List (String × Node))
    (hne : k2 ≠ k) : sHasKey k2 (sSet k v m) = sHasKey k2 m := by
  have hmem : k2 ∈ (sSet k v m).map Prod.fst ↔ k2 ∈ m.map Prod.fst := by
    rw [keys_sSet]
    by_cases h : sHasKey k m = true
    · rw [if_pos h]
    · rw [if_neg h]
      simp [hne]
  cases hA : sHasKey k2 (sSet k v m) <;> cases hB : sHasKey k2 m
  · rfl
  · exact absurd ((sHasKey_iff_mem.mpr (hmem.mpr (sHasKey_iff_mem.mp hB))).trans rfl)
      (by rw [hA]; exact Bool.false_ne_true)
  · exact absurd ((sHasKey_iff_mem.mpr (hmem.mp (sHasKey_iff_mem.mp hA))).trans rfl)
      (by rw [hB]; exact Bool.false_ne_true)
  · rfl

theorem sLookup_sUpdate (k : String) :
    ∀ (u m : List (String × Node)), sKeysNodup u →
      sLookup k (sUpdate m u) =
        match sLookup k u with
        | some v => some v
        | Option.none => sLookup k m := by
  intro u
  induction u with
  | nil => intro m _; rfl
  | cons kv u' ih =>
      intro m hu
      have hnodup' : sKeysNodup u' := by
        simp only [sKeysNodup, List.map_cons, List.nodup_cons] at hu
        exact hu.2
      have hnotmem : kv.1 ∉ u'.map Prod.fst := by
        simp only [sKeysNodup, List.map_cons, List.nodup_cons] at hu
        exact hu.1
      have hstep : sUpdate m (kv :: u') = sUpdate (sSet kv.1 kv.2 m) u' := rfl
      rw [hstep, ih (sSet kv.1 kv.2 m) hnodup']
      by_cases hk : k = kv.1
      · subst hk
        rw [sLookup_notmem_none hnotmem, sLookup_sSet_self]
        simp [sLookup]
      · rw [sLookup_sSet_ne kv.1 k kv.2 m hk]
        have hne : ¬(kv.1 = k) := fun he => hk he.symm
        simp only [sLookup, if_neg hne]

theorem keys_sUpdate :
    ∀ (u m : List (String × Node)), sKeysNodup u →
      (sUpdate m u).map Prod.fst =
        m.map Prod.fst ++ (u.filter (fun kv => !sHasKey kv.1 m)).map Prod.fst := by
  intro u
  induction u with
  | nil => intro m _; simp [sUpdate]
  | cons kv u' ih =>
      intro m hu
      have hnodup' : sKeysNodup u' := by
        simp only [sKeysNodup, List.map_cons, List.nodup_cons] at hu
        exact hu.2
      have hnotmem : kv.1 ∉ u'.map Prod.fst := by
        simp only [sKeysNodup, List.map_cons, List.nodup_cons] at hu
        exact hu.1
      have hstep : sUpdate m (kv :: u') = sUpdate (sSet kv.1 kv.2 m) u' := rfl
      rw [hstep, ih (sSet kv.1 kv.2 m) hnodup', keys_sSet]
      have hfilter : u'.filter (fun kv2 => !sHasKey kv2.1 (sSet kv.1 kv.2 m)) =
          u'.filter (fun kv2 => !sHasKey kv2.1 m) := by
        apply List.filter_congr
        intro kv2 hkv2
        have hne : kv2.1 ≠ kv.1 := by
          intro he
          exact hnotmem (he ▸ (List.mem_map.mpr ⟨kv2, hkv2, rfl⟩))
        rw [sHasKey_sSet_ne kv.1 kv2.1 kv.2 m hne]
      rw [hfilter]
      by_cases h : sHasKey kv.1 m = true
      · rw [if_pos h]
        have hdrop : (kv :: u').filter (fun kv2 => !sHasKey kv2.1 m) =
            u'.filter (fun kv2 => !sHasKey kv2.1 m) := by
          simp [List.filter_cons, h]
        rw [hdrop]
      · rw [if_neg h]
        have hb : sHasKey kv.1 m = false := by
          cases h2 : sHasKey kv.1 m
          · rfl
          · exact absurd h2 h
        have hkeep : (kv :: u').filter (fun kv2 => !sHasKey kv2.1 m) =
            kv :: u'.filter (fun kv2 => !sHasKey kv2.1 m) := by
          simp [List.filter_cons, hb]
        rw [hkeep]
        simp

theorem sUpdate_disjoint :
    ∀ (u m : List (String × Node)), sKeysNodup u →
      (∀ kv ∈ u, sHasKey kv.1 m = false) → sUpdate m u = m ++ u := by
  intro u
  induction u with
  | nil => intro m _ _; simp [sUpdate]
  | cons kv u' ih =>
      intro m hu hdis
      have hnodup' : sKeysNodup u' := by
        simp only [sKeysNodup, List.map_cons, List.nodup_cons] at hu
        exact hu.2
      have hnotmem : kv.1 ∉ u'.map Prod.fst := by
        simp only [sKeysNodup, List.map_cons, List.nodup_cons] at hu
        exact hu.1
      have hstep : sUpdate m (kv :: u') = sUpdate (sSet kv.1 kv.2 m) u' := rfl
      have hset : sSet kv.1 kv.2 m = m ++ [kv] := by
        unfold sSet
        rw [if_neg (by
          rw [hdis kv (List.mem_cons_self kv u')]
          exact Bool.false_ne_true)]
      rw [hstep, hset, ih (m ++ [kv]) hnodup' ?_]
      · simp
      · intro kv2 h2
        rw [sHasKey_append, hdis kv2 (List.mem_cons_of_mem kv h2)]
        have hne : kv2.1 ≠ kv.1 := by
          intro he
          exact hnotmem (he ▸ (List.mem_map.mpr ⟨kv2, h2, rfl⟩))
        have hne2 : ¬kv.1 = kv2.1 := fun he => hne he.symm
        simp [sHasKey, hne2]

theorem sLookup_filter_of_hasKey_false {k : String} {own : List (String × Node)}
    (h : sHasKey k own = false) :
    ∀ m : List (String × Node),
      sLookup k (m.filter (fun kv => !sHasKey kv.1 own)) = sLookup k m := by
  intro m
  induction m with
  | nil => rfl
  | cons kv rest ih =>
      by_cases hk : kv.1 = k
      · have hkeep : (!sHasKey kv.1 own) = true := by rw [hk, h]; rfl
        simp [List.filter_cons, hkeep, sLookup, hk, h]
      · by_cases hkeep : (!sHasKey kv.1 own) = true
        · simp [List.filter_cons, hkeep, sLookup, hk, ih]
        · simp [List.filter_cons, hkeep, sLookup, hk, ih]

/-- One-step unfolding of `read_file`. -/
theorem readFileF_succ (fuel : Nat) (ext : List CfgFile) (own : List (String × Node)) :
    readFileF (fuel + 1) (CfgFile.mk ext own) =
      match extendsFold (readFileF fuel) ext with
      | .error e => .error e
      | .ok acc => .ok (sUpdate (acc.filter (fun kv => !sHasKey kv.1 own)) own) := rfl

/-- The `extends` loop on a two-file list `[A, B]`: reversed, so `B` is
merged first and `A` second. -/
theorem extendsFold_pair (fuel : Nat) (A B : CfgFile) (ra rb : List (String × Node))
    (hA : readFileF fuel A = .ok ra) (hB : readFileF fuel B = .ok rb) :
    extendsFold (readFileF fuel) [A, B] = .ok (sUpdate (sUpdate [] rb) ra) := by
  unfold extendsFold
  rw [show ([A, B].reverse) = [B, A] from by simp]
  rw [show ([B, A].foldlM (fun acc e => (readFileF fuel e).map (sUpdate acc)) []) =
      ((readFileF fuel B).map (sUpdate []) >>= fun acc =>
        (readFileF fuel A).map (sUpdate acc) >>= fun acc2 => pure acc2) from rfl]
  rw [hA, hB]
  rfl

/-- C3 (amended): `OrderedDict.update` does *not* move an existing key — it
overwrites the value in place, so during the `extends` accumulation a key
already in the accumulator keeps its position (first conjunct: the key
order of `update` is old keys in place, then genuinely new keys appended).
The remove-before-merge step exists only for the file's *own* entries: the
accumulated keys that the file itself sets are deleted and the file's
entries then all sit at the end (second conjunct). -/
theorem c3_merge_order_amended :
    (∀ (s u : List (String × Node)), sKeysNodup u →
        (sUpdate s u).map Prod.fst =
          s.map Prod.fst ++ (u.filter (fun kv => !sHasKey kv.1 s)).map Prod.fst)
    ∧ (∀ (fuel : Nat) (ext : List CfgFile) (own acc : List (String × Node)),
        extendsFold (readFileF fuel) ext = .ok acc → sKeysNodup own →
        readFileF (fuel + 1) (CfgFile.mk ext own) =
          .ok (acc.filter (fun kv => !sHasKey kv.1 own) ++ own)) := by
  constructor
  · intro s u hu
    exact keys_sUpdate u s hu
  · intro fuel ext own acc hacc hown
    rw [readFileF_succ, hacc]
    have hdis : ∀ kv ∈ own,
        sHasKey kv.1 (acc.filter (fun kv2 => !sHasKey kv2.1 own)) = false := by
      intro kv hkv
      cases hres : sHasKey kv.1 (acc.filter (fun kv2 => !sHasKey kv2.1 own)) with
      | false => rfl
      | true =>
          exfalso
          obtain ⟨kv2, hmemf, hfst⟩ := List.mem_map.mp (sHasKey_iff_mem.mp hres)
          have hmf := List.mem_filter.mp hmemf
          have hko : sHasKey kv2.1 own = true := by
            rw [hfst]
            exact sHasKey_iff_mem.mpr (List.mem_map.mpr ⟨kv, hkv, rfl⟩)
          rw [hko] at hmf
          exact absurd hmf.2 (by simp)
    show Except.ok (sUpdate (acc.filter (fun kv => !sHasKey kv.1 own)) own) =
      Except.ok (acc.filter (fun kv => !sHasKey kv.1 own) ++ own)
    rw [sUpdate_disjoint own (acc.filter (fun kv2 => !sHasKey kv2.1 own)) hown hdis]

/-- C3 counterexample: file `C` extends `[A, B]` where `B = \x7by: 2, x: 1\x7d`
and `A = \x7by: 9\x7d`; merging `A` into the accumulator (which already has
`y` from `B`) does *not* remove the existing entry first: `y` survives at
position 0 with `A`'s value, not at the end as the claim states. -/
theorem c3_counterexample :
    readFileF 2 (CfgFile.mk
        [CfgFile.mk [] [("y", Node.int 9)],
         CfgFile.mk [] [("y", Node.int 2), ("x", Node.int 1)]] []) =
      .ok [("y", Node.int 9), ("x", Node.int 1)] ∧
    (["y", "x"] : List String) ≠ ["x", "y"] :=
  ⟨rfl, by decide⟩

/-- Witness for the amended C3 at a concrete update. -/
theorem c3_witness :
    (sUpdate [("y", Node.int 2), ("x", Node.int 1)] [("y", Node.int 9)]).map Prod.fst =
      ["y", "x"] := by
  have h := c3_merge_order_amended.1 [("y", Node.int 2), ("x", Node.int 1)]
    [("y", Node.int 9)] (by decide)
  simpa [sHasKey] using h

/-- C1 (amended): with `extends` naming `[A, B]`, the loop iterates over the
*reversed* list, merging `B` first and `A` second, so for a key set in both
extended files the *earlier-listed* file (`A`) wins — not the later-listed
one; the file's own entries still win over both.  The merged value of any
key is: the file's own value, else `A`'s, else `B`'s. -/
theorem c1_extends_precedence_amended (fuel : Nat) (A B : CfgFile)
    (own ra rb : List (String × Node)) (k : String)
    (hA : readFileF fuel A = .ok ra) (hB : readFileF fuel B = .ok rb)
    (hra : sKeysNodup ra) (hrb : sKeysNodup rb) (hown : sKeysNodup own) :
    ∃ merged, readFileF (fuel + 1) (CfgFile.mk [A, B] own) = .ok merged ∧
      sLookup k merged =
        (match sLookup k own with
         | some v => some v
         | Option.none =>
             match sLookup k ra with
             | some v => some v
             | Option.none => sLookup k rb) := by
  have hef := extendsFold_pair fuel A B ra rb hA hB
  have hread : readFileF (fuel + 1) (CfgFile.mk [A, B] own) =
      .ok (sUpdate ((sUpdate (sUpdate [] rb) ra).filter
        (fun kv => !sHasKey kv.1 own)) own) := by
    rw [readFileF_succ, hef]
  refine ⟨_, hread, ?_⟩
  rw [sLookup_sUpdate k own _ hown]
  cases hko : sLookup k own with
  | some v => rfl
  | none =>
      have hkown : sHasKey k own = false := sLookup_none_iff_sHasKey_false.mp hko
      rw [sLookup_filter_of_hasKey_false hkown]
      rw [sLookup_sUpdate k ra _ hra]
      cases sLookup k ra with
      | some v => rfl
      | none =>
          rw [sLookup_sUpdate k rb _ hrb]
          cases sLookup k rb with
          | some v => rfl
          | none => rfl

/-- C1 counterexample: `C` extends `[A, B]` with `A = \x7bk: 1\x7d` and
`B = \x7bk: 2\x7d`; the merged value of `k` is `A`'s `1` (the earlier-listed
file), not `B`'s `2` as the claim states. -/
theorem c1_counterexample :
    readFileF 2 (CfgFile.mk
        [CfgFile.mk [] [("k", Node.int 1)], CfgFile.mk [] [("k", Node.int 2)]] []) =
      .ok [("k", Node.int 1)] ∧ Node.int 1 ≠ Node.int 2 :=
  ⟨rfl, by intro h; injection h with h2; exact absurd h2 (by decide)⟩

/-- Witness for the amended C1 at concrete files. -/
theorem c1_witness :
    readFileF 2 (CfgFile.mk
        [CfgFile.mk [] [("k", Node.int 1), ("a", Node.int 3)],
         CfgFile.mk [] [("k", Node.int 2), ("b", Node.int 4)]] [("c", Node.int 5)]) =
      .ok [("k", Node.int 1), ("b", Node.int 4), ("a", Node.int 3), ("c", Node.int 5)] ∧
    sLookup "k" [("k", Node.int 1), ("b", Node.int 4), ("a", Node.int 3),
      ("c", Node.int 5)] = some (Node.int 1) := by
  obtain ⟨merged, hm, hl⟩ := c1_extends_precedence_amended 1
    (CfgFile.mk [] [("k", Node.int 1), ("a", Node.int 3)])
    (CfgFile.mk [] [("k", Node.int 2), ("b", Node.int 4)])
    [("c", Node.int 5)]
    [("k", Node.int 1), ("a", Node.int 3)]
    [("k", Node.int 2), ("b", Node.int 4)]
    "k" rfl rfl (by decide) (by decide) (by decide)
  have hcalc : readFileF 2 (CfgFile.mk
      [CfgFile.mk [] [("k", Node.int 1), ("a", Node.int 3)],
       CfgFile.mk [] [("k", Node.int 2), ("b", Node.int 4)]] [("c", Node.int 5)]) =
      .ok [("k", Node.int 1), ("b", Node.int 4), ("a", Node.int 3),
        ("c", Node.int 5)] := rfl
  rw [hcalc] at hm
  injection hm with hmerged
  subst hmerged
  exact ⟨hcalc, hl.trans rfl⟩
